import Mathlib

/-!
# Verification of the Drone composite state machine

A shallow embedding of the state-machine core of the Drone browser-automation
library (the `Drone` class and `StateMachine` class of the repository), together
with proofs and refutations of the specification's claims about it.

Conventions of the embedding:

* JS strings are `String`; JS objects used as string-keyed maps are association
  lists (`List (String × _)`), which preserve the insertion order that the JS
  code relies on (`Object.keys`, `Object.entries`, `forEach` all iterate in
  insertion order).
* A composite state or state fragment (a JS object mapping layer names to layer
  values, with the distinguished key `"base"`) is a `Frag`.
* Transition callbacks are opaque: only their identity matters to the claims
  under study, so a transition's `logic` field is an opaque `Nat` token.
* State test predicates are genuine boolean functions of an abstract page type
  `P` (the page driver is an external collaborator).
* Thrown JS exceptions are `Except String` errors (carrying the message), or,
  for the mutating registration methods, a `Machine P × Option String` result:
  the machine as the method leaves it together with the thrown message, if any.
* `Infinity` distances in the Dijkstra router are `⊤ : WithTop Nat`; edge costs
  in the repository's own tests and defaults are small naturals, and the spec
  restricts attention to nonnegative costs, so costs are `Nat`.
-/

namespace Drone

/-- `BAD_STATE` from the source: the sentinel vertex for "no known state". -/
def BAD_STATE : String := "< INVALID STATE >"

/-- A composite state / state fragment: a JS object mapping layer names
(including the special key `"base"`) to values, kept as an insertion-ordered
association list. -/
abbrev Frag := List (String × String)

/-- `util.isSubstate(subState, superState)`: every key/value pair of the
fragment is present (and equal) in the superstate. -/
def isSubstate (subState superState : Frag) : Bool :=
  subState.all (fun kv => List.lookup kv.1 superState == some kv.2)

/-- The JS object spread `{...a, ...b}`: keys of `a` in their order (values
overridden by `b` where `b` also has the key), followed by keys of `b` that are
new, in `b`'s order. -/
def spread (a b : Frag) : Frag :=
  (a.map (fun kv =>
    match List.lookup kv.1 b with
    | some v => (kv.1, v)
    | none => kv)) ++
  b.filter (fun kv => (List.lookup kv.1 a).isNone)

/-- Insert an entry into a key-sorted fragment, keeping it sorted by key. -/
def insertByKey (kv : String × String) : Frag → Frag
  | [] => [kv]
  | kv' :: rest =>
    if kv.1 ≤ kv'.1 then kv :: kv' :: rest else kv' :: insertByKey kv rest

/-- Sort a fragment's entries by key (the canonicalization performed by
`util.stateToString`, which serializes with `Object.keys(state).sort()`).
Canonical fragments play the role of the canonical key strings in the
`fragmentTransitions` table: `util.stringToState` recovers exactly the
key/value map, which the canonical fragment is. -/
def canonFrag : Frag → Frag
  | [] => []
  | kv :: rest => insertByKey kv (canonFrag rest)

/-- `util.stateToString`: JSON serialization with sorted keys (used only in
error messages here; the transition tables are keyed by `canonFrag` directly). -/
def stateToString (f : Frag) : String :=
  "\x7b" ++
    String.intercalate ","
      ((canonFrag f).map (fun kv => "\"" ++ kv.1 ++ "\":\"" ++ kv.2 ++ "\"")) ++
  "\x7d"

/-- `util.filterByLayer(states, filteredProps)`: keep the states agreeing with
every key/value pair of the filter. -/
def filterByLayer (states : List Frag) (filteredProps : Frag) : List Frag :=
  states.filter (fun state =>
    filteredProps.all (fun kv => List.lookup kv.1 state == some kv.2))

/-- JS assignment `obj[k] = v` on an insertion-ordered map: overwrite in place
if the key exists, else append. -/
def assocSet {κ β : Type} [BEq κ] : List (κ × β) → κ → β → List (κ × β)
  | [], k, v => [(k, v)]
  | kv :: rest, k, v =>
    if kv.1 == k then (k, v) :: rest else kv :: assocSet rest k v

/-- `obj[k]` on an insertion-ordered map. -/
def assocGet {κ β : Type} [BEq κ] (tbl : List (κ × β)) (k : κ) : Option β :=
  (tbl.find? (fun kv => kv.1 == k)).map (·.2)

/-- A dependency recorded for a layer state (`StateDependency` in the source):
a fragment of earlier-layer assignments plus the base states it applies to. -/
structure StateDependency where
  dependency : Frag
  baseStateList : List String
deriving Repr, DecidableEq

/-- A per-value entry of a layer (`this.layers[layer][stateField]` in the
source). The test callback the source also stores is never consulted by the
operations under study (`computeCompositeStates`, `allStates`, `getNeighbors`),
so it is not modelled. -/
structure LayerState where
  baseStateList : List String
  dependencies : List StateDependency
deriving Repr, DecidableEq

/-- A stored transition: cost plus an opaque token standing for the
transition-logic callback. -/
structure Transition where
  cost : Nat
  logic : Nat
deriving Repr, DecidableEq

/-- `if (!tbl[a]) tbl[a] = {}` : create an empty bucket for a two-level table
if the outer key is absent. -/
def ensureBucket {κ : Type} [BEq κ] (tbl : List (κ × List (κ × Transition)))
    (a : κ) : List (κ × List (κ × Transition)) :=
  if (assocGet tbl a).isSome then tbl else tbl ++ [(a, [])]

/-- `tbl[a][b] = t` on a two-level table whose outer bucket for `a` exists. -/
def setInBucket {κ : Type} [BEq κ] (tbl : List (κ × List (κ × Transition)))
    (a b : κ) (t : Transition) : List (κ × List (κ × Transition)) :=
  tbl.map (fun kv => if kv.1 == a then (kv.1, assocSet kv.2 b t) else kv)

/-- `tbl[a] && tbl[a][b]` on a two-level table. -/
def edgeIn {κ : Type} [BEq κ] (tbl : List (κ × List (κ × Transition)))
    (a b : κ) : Option Transition :=
  (assocGet tbl a).bind (fun bucket => assocGet bucket b)

/-- The state-machine portion of the `Drone` class (`part_000`), equally the
`StateMachine` class: registered base states in priority order, their test
predicates over an abstract page type `P`, the cached current state, the
base-state adjacency table, the fragment-transition table (keyed by canonical
fragments), and the compositing layers. -/
structure Machine (P : Type) where
  states : List String
  stateTests : List (String × (P → Bool))
  currentState : Option String
  neighbors : List (String × List (String × Transition))
  fragmentTransitions : List (Frag × List (Frag × Transition))
  layers : List (String × List (String × LayerState))

namespace Machine

variable {P : Type}

/-- `this.stateTests[s]` (key lookup). -/
def testFor (m : Machine P) (s : String) : Option (P → Bool) :=
  assocGet m.stateTests s

/-- The test predicate of a state, defaulting to constantly-false for an
unregistered name (the JS code never evaluates a test of an unregistered
state without crashing first). -/
def testOf (m : Machine P) (s : String) (page : P) : Bool :=
  match m.testFor s with
  | some f => f page
  | none => false

/-- `this.neighbors[start]` (key lookup; `some bucket` iff the key exists). -/
def neighborsOf (m : Machine P) (start : String) : Option (List (String × Transition)) :=
  assocGet m.neighbors start

/-- `this.neighbors[start][end]`. -/
def edgeFor (m : Machine P) (start stop : String) : Option Transition :=
  edgeIn m.neighbors start stop

/-- `this.layers[name]` (key lookup). -/
def layerFor (m : Machine P) (name : String) : Option (List (String × LayerState)) :=
  assocGet m.layers name

/-- `whereAmI()` of `part_000` as a state transformer: the returned
classification together with the machine as the method leaves it.  The method
body performs no assignment to any field, so the machine component is the
input machine: the fast path returns the cached state when its predicate still
passes, otherwise the registered states are scanned in priority (declaration)
order and the first passing one is returned; `none` models the `null` returned
when no predicate matches. -/
def whereAmI (m : Machine P) (page : P) : Option String × Machine P :=
  match m.currentState with
  | some cs =>
    if m.testOf cs page then (some cs, m)
    else (m.states.find? (fun s => m.testOf s page), m)
  | none => (m.states.find? (fun s => m.testOf s page), m)

end Machine

/-- `isDependencySatisfied(baseState, stateDependency, state)`: with no
dependencies, membership of the base state in the fragment's base-state list;
otherwise some dependency must list the base state and have its recorded
layer assignments contained in the partial state built so far. -/
def isDependencySatisfied (baseState : String) (sd : LayerState) (state : Frag) : Bool :=
  if sd.dependencies.isEmpty then sd.baseStateList.contains baseState
  else sd.dependencies.any
    (fun dep => dep.baseStateList.contains baseState && isSubstate dep.dependency state)

/-- `state.base` of a partial composite state (always present: partial states
start as `{base: name}` and only gain layer keys). -/
def baseOf (state : Frag) : String :=
  (List.lookup "base" state).getD ""

/-- The inner loop of `computeCompositeStates` for one partial state at one
layer: one new partial state `{...state, [layer]: value}` per per-value
fragment whose dependency check passes, in declaration order. -/
def layerMatches (layer : String) (layerStates : List (String × LayerState))
    (state : Frag) : List Frag :=
  (layerStates.filter (fun sl => isDependencySatisfied (baseOf state) sl.2 state)).map
    (fun sl => spread state [(layer, sl.1)])

/-- The error thrown when a partial state matches no fragment of a layer. -/
def noCompositeMsg (layer baseState : String) : String :=
  "No composite state of type \"" ++ layer ++ "\" exists for base state \"" ++
    baseState ++ "\"."

/-- One layer pass of `computeCompositeStates`: expand every partial state,
failing on the first partial state with zero matching fragments. -/
def expandLayer (layer : String) (layerStates : List (String × LayerState)) :
    List Frag → Except String (List Frag)
  | [] => .ok []
  | state :: rest =>
    let ms := layerMatches layer layerStates state
    if ms.isEmpty then .error (noCompositeMsg layer (baseOf state))
    else do
      let tail ← expandLayer layer layerStates rest
      pure (ms ++ tail)

/-- The layer loop of `computeCompositeStates`. -/
def computeLayers : List (String × List (String × LayerState)) → List Frag →
    Except String (List Frag)
  | [], states => .ok states
  | (layer, layerStates) :: rest, states => do
    let ns ← expandLayer layer layerStates states
    computeLayers rest ns

namespace Machine

variable {P : Type}

/-- `computeCompositeStates()`: expand `{base: name}` seeds through every
declared layer in declaration order. -/
def computeCompositeStates (m : Machine P) : Except String (List Frag) :=
  computeLayers m.layers (m.states.map (fun s => [("base", s)]))

/-- `allStates(filter?)`: recompute the composite expansion; with a filter,
first reject any filter key that is neither `"base"` nor a declared layer,
then keep only the matching states. -/
def allStates (m : Machine P) (filter : Option Frag) : Except String (List Frag) := do
  let css ← m.computeCompositeStates
  match filter with
  | none => pure css
  | some f =>
    match f.find? (fun kv => !(kv.1 == "base") && (m.layerFor kv.1).isNone) with
    | some kv => throw ("Compositing layer \"" ++ kv.1 ++ "\" doesn't exist.")
    | none => pure (filterByLayer css f)

/-- `isValidState(state)`: the fragment is a submap of at least one expanded
composite state. -/
def isValidState (m : Machine P) (state : Frag) : Except String Bool :=
  (m.allStates none).map (fun all => all.any (fun existing => isSubstate state existing))

/-- The composite (object-argument) branch of `getNeighbors(startState)`:
validate the fragment, resolve it against the expansion (zero matches is a
"not a valid state" error, two or more an ambiguity error), and for the unique
matching full state collect, for every fragment transition whose start
fragment is a submap of it, the spread of the transition's end fragment onto
the *passed* fragment. -/
def getNeighbors (m : Machine P) (startState : Frag) : Except String (List Frag) := do
  let valid ← m.isValidState startState
  if !valid then
    throw (stateToString startState ++ " is not a valid state.")
  else
    let resolved ← m.allStates (some startState)
    match resolved with
    | [] => pure []
    | [fullState] =>
      pure (m.fragmentTransitions.flatMap (fun bucket =>
        if isSubstate bucket.1 fullState then
          bucket.2.map (fun e => spread startState e.1)
        else []))
    | _ :: _ :: _ =>
      throw ("Multiple composite states match " ++ stateToString startState ++
        ", define more layers to resolve ambiguity.")

/-- The string-argument branch of `getNeighbors`: the names directly reachable
from a base state. -/
def getNeighborsOfBase (m : Machine P) (startState : String) : Except String (List String) :=
  if (m.testFor startState).isNone then
    .error ("\"" ++ startState ++ "\" is not a valid state.")
  else .ok (((m.neighborsOf startState).getD []).map (·.1))

/-- `addStateTransition(start, end, logic, cost = 1)` as a state transformer:
the machine as the method leaves it, plus the thrown message if any.  All
throws happen before any mutation, so a failed call leaves the machine intact.
A successful call stores the edge in `neighbors` and mirrors it into
`fragmentTransitions` under the canonical `{base: name}` keys. -/
def addStateTransition (m : Machine P) (startState endState : String)
    (logic : Nat) (cost : Nat := 1) : Machine P × Option String :=
  if (m.testFor startState).isNone then
    (m, some ("Start state \"" ++ startState ++ "\" does not exist."))
  else if (m.testFor endState).isNone then
    (m, some ("End state \"" ++ endState ++ "\" does not exist."))
  else if startState = endState then
    (m, some ("Trying to add transition from state to itself (" ++ startState ++ ")."))
  else
    match m.edgeFor startState endState with
    | some t =>
      if t.cost ≤ cost then
        (m, some ("A cheaper path (cost = " ++ toString t.cost ++ ") from \"" ++
          startState ++ "\" to \"" ++ endState ++ "\" already exists."))
      else addStateTransitionStore m startState endState logic cost
    | none => addStateTransitionStore m startState endState logic cost
where
  addStateTransitionStore (m : Machine P) (startState endState : String)
      (logic cost : Nat) : Machine P × Option String :=
    let t : Transition := ⟨cost, logic⟩
    ({ m with
        neighbors :=
          setInBucket (ensureBucket m.neighbors startState) startState endState t,
        fragmentTransitions :=
          setInBucket (ensureBucket m.fragmentTransitions [("base", startState)])
            [("base", startState)] [("base", endState)] t },
      none)

/-- `addDefaultStateTransition(end, logic, cost = 1)`: validate only that the
end state exists, then unconditionally store the edge out of the sentinel. -/
def addDefaultStateTransition (m : Machine P) (endState : String)
    (logic : Nat) (cost : Nat := 1) : Machine P × Option String :=
  if (m.testFor endState).isNone then
    (m, some ("End state \"" ++ endState ++ "\" does not exist."))
  else
    ({ m with
        neighbors :=
          setInBucket (ensureBucket m.neighbors BAD_STATE) BAD_STATE endState
            ⟨cost, logic⟩ },
      none)

/-- `addCompositeStateTransition(start, end, logic, cost = 1)`: validate that
the start fragment and the spread `{...start, ...end}` each match a generated
state; ensure the outer bucket for the canonical start key (the source creates
the empty bucket *before* the cost check, so that mutation survives a cost
error); reject when a strictly cheaper stored edge exists; otherwise store. -/
def addCompositeStateTransition (m : Machine P) (startState endState : Frag)
    (logic : Nat) (cost : Nat := 1) : Machine P × Option String :=
  let expandedEnd := spread startState endState
  match m.isValidState startState with
  | .error e => (m, some e)
  | .ok false =>
    (m, some ("No generated state matches composite start state of " ++
      stateToString startState))
  | .ok true =>
    match m.isValidState expandedEnd with
    | .error e => (m, some e)
    | .ok false =>
      (m, some ("No generated state matches composite end state of " ++
        stateToString expandedEnd))
    | .ok true =>
      let startKey := canonFrag startState
      let endKey := canonFrag endState
      let m1 : Machine P :=
        { m with fragmentTransitions := ensureBucket m.fragmentTransitions startKey }
      match edgeIn m1.fragmentTransitions startKey endKey with
      | some t0 =>
        if t0.cost < cost then
          (m1, some ("A cheaper path (cost = " ++ toString t0.cost ++ ") for " ++
            stateToString startState ++ " >> " ++ stateToString endState ++
            " transition already exists."))
        else
          ({ m1 with fragmentTransitions :=
              setInBucket m1.fragmentTransitions startKey endKey ⟨cost, logic⟩ },
            none)
      | none =>
        ({ m1 with fragmentTransitions :=
            setInBucket m1.fragmentTransitions startKey endKey ⟨cost, logic⟩ },
          none)

end Machine

/-- An entry of the `vertices` table of `findPathToState`: tentative distance
(`Infinity` is `⊤`) and predecessor pointer. -/
structure Vertex where
  distance : WithTop Nat
  prev : Option String
deriving Repr, DecidableEq

/-- The `vertices` table, as a total map (unwritten names read as distance
`⊤` with no predecessor, which the algorithm never consults). -/
abbrev VMap := String → Vertex

/-- `vertices[k] = val`. -/
def updV (V : VMap) (k : String) (val : Vertex) : VMap :=
  fun x => if x = k then val else V x

/-- The minimum-extraction scan of `findPathToState`: walk the unvisited list,
strictly improving on the best (node, distance) seen so far, starting from
(`null`, `Infinity`). The first of the minimal-distance nodes wins. -/
def findMinNode (V : VMap) : List String → Option String × WithTop Nat →
    Option String × WithTop Nat
  | [], acc => acc
  | s :: rest, acc =>
    findMinNode V rest (if (V s).distance < acc.2 then (some s, (V s).distance) else acc)

/-- The relaxation scan of `findPathToState` over the extracted node's
outgoing edges, in insertion order, using the captured minimum distance. -/
def relaxEdges (node : String) (minDistance : WithTop Nat) :
    List (String × Transition) → VMap → VMap
  | [], V => V
  | (nb, t) :: rest, V =>
    relaxEdges node minDistance rest
      (if minDistance + (t.cost : WithTop Nat) < (V nb).distance then
        updV V nb ⟨minDistance + (t.cost : WithTop Nat), some node⟩
      else V)

namespace Machine

variable {P : Type}

/-- `Object.keys(this.neighbors[node] || {})` with the stored transitions. -/
def outEdges (m : Machine P) (node : String) : List (String × Transition) :=
  (m.neighborsOf node).getD []

/-- The main `while (unvisited.length)` loop of `findPathToState`.  Each pass
removes exactly one entry from the unvisited list — the extracted minimum, or,
when every unvisited distance is `Infinity` (so the extracted node is `null`
and `indexOf` yields `-1`), the last entry (`splice(-1, 1)`) with no
relaxation — so running it with fuel `unvisited.length` drains the list
exactly as the source loop does. -/
def dijkstraLoop (m : Machine P) : Nat → List String → VMap → VMap
  | 0, _, V => V
  | fuel + 1, unvisited, V =>
    if unvisited.isEmpty then V
    else
      match findMinNode V unvisited (none, ⊤) with
      | (some node, minDistance) =>
        dijkstraLoop m fuel (unvisited.erase node)
          (relaxEdges node minDistance (m.outEdges node) V)
      | (none, _) => dijkstraLoop m fuel unvisited.dropLast V

end Machine

/-- The predecessor walk of `findPathToState`, prepending `(prev', current')`
pairs until `prev` reaches the start or the sentinel.  The source's `while`
loop has no structural bound, so the walk carries fuel; exhaustion (or a null
predecessor read, on which the source would crash with a `TypeError`) yields
`none`, a failure.  Under the router invariants proved below the fuel
`states.length + 2` always suffices. -/
def buildPath (V : VMap) (startState : String) :
    Nat → String → String → List (String × String) → Option (List (String × String))
  | 0, _, _, _ => none
  | fuel + 1, prev, current, path =>
    if prev = startState ∨ prev = BAD_STATE then some path
    else
      match (V current).prev, (V prev).prev with
      | some c2, some p2 => buildPath V startState fuel p2 c2 ((p2, c2) :: path)
      | _, _ => none

namespace Machine

variable {P : Type}

/-- The initial `vertices` table of `findPathToState`: every state at
distance `Infinity` except the start at 0 (the `states.forEach` seeding),
then the sentinel unconditionally written at distance 0. -/
def initialVertices (startState : String) : VMap :=
  updV (fun s => if s = startState then ⟨0, none⟩ else ⟨⊤, none⟩) BAD_STATE ⟨0, none⟩

/-- The vertex table after the main loop of `findPathToState` has drained the
unvisited list `[...this.states, BAD_STATE]`. -/
def dijkstraFinal (m : Machine P) (startState : String) : VMap :=
  m.dijkstraLoop (m.states ++ [BAD_STATE]).length (m.states ++ [BAD_STATE])
    (initialVertices startState)

/-- The body of `findPathToState(stateName)` after the start state has been
fully resolved (`whereAmI` fallback and the no-outgoing-edges fallback both
applied): return the empty path when already at the target, otherwise run the
Dijkstra loop and reconstruct the edge path backward from the target's
predecessor pointers. -/
def findPathFromStart (m : Machine P) (startState stateName : String) :
    Except String (List (String × String)) :=
  if startState = stateName then .ok []
  else
    match ((m.dijkstraFinal startState) stateName).prev with
    | none =>
      .error ("No route exists from \"" ++ startState ++ "\" (current) to \"" ++
        stateName ++ "\" and no default route exists.")
    | some prev =>
      match buildPath (m.dijkstraFinal startState) startState (m.states.length + 2)
          prev stateName [(prev, stateName)] with
      | some path => .ok path
      | none => .error "Path reconstruction did not terminate."

/-- `findPathToState(stateName)` of `part_000`, after the current state has
been resolved (the `await this.whereAmI() || BAD_STATE` value is passed in as
`resolvedState`): validate the target, fall back to the sentinel when the
resolved state has no outgoing-edge bucket, then run `findPathFromStart`. -/
def findPathFrom (m : Machine P) (resolvedState stateName : String) :
    Except String (List (String × String)) :=
  if !(m.states.contains stateName) then
    .error ("Unknown state: \"" ++ stateName ++ "\", you must add this state to Drone first.")
  else
    m.findPathFromStart
      (if (m.neighborsOf resolvedState).isNone then BAD_STATE else resolvedState)
      stateName

/-- `findPathToState(stateName)` including the current-state resolution
`await this.whereAmI() || BAD_STATE`. -/
def findPathToState (m : Machine P) (page : P) (stateName : String) :
    Except String (List (String × String)) :=
  m.findPathFrom (((m.whereAmI page).1).getD BAD_STATE) stateName

/-- The per-candidate total cost computed by `ensureEitherState`:
`path.reduce((cost, [s, e]) => cost + this.neighbors[s][e].cost, 0)` (a
missing edge, which cannot occur on a returned path, reads as 0). -/
def pathCost (m : Machine P) (path : List (String × String)) : Nat :=
  path.foldl (fun cost e => cost + ((m.edgeFor e.1 e.2).map (·.cost)).getD 0) 0

end Machine

/-- Whether the first list of characters starts the second. -/
def startsChars : List Char → List Char → Bool
  | [], _ => true
  | _ :: _, [] => false
  | p :: ps, c :: cs => p == c && startsChars ps cs

/-- Whether the pattern occurs in the character list. -/
def containsChars (pat : List Char) : List Char → Bool
  | [] => pat.isEmpty
  | c :: cs => startsChars pat (c :: cs) || containsChars pat cs

/-- `/pat/.test(s)` for a literal pattern: substring containment. -/
def containsSub (s pat : String) : Bool :=
  containsChars pat.data s.data

namespace Machine

variable {P : Type}

/-- The candidate loop of `ensureEitherState(stateList, ...)`: try
`findPathToState` on each candidate in order, keeping the strictly cheapest
(so the first minimum wins); re-throw any error whose message does not match
`/No route exists/`; fail when no candidate produced a path.  The successful
result is the pair the source then acts on: the chosen state name (passed to
the continuation) and its path (handed to `traversePath`). -/
def ensureEitherGo (m : Machine P) (page : P) (stateList : List String) :
    List String → WithTop Nat → Option (List (String × String)) → String →
    Except String (String × List (String × String))
  | [], _, none, _ =>
    .error ("No route exists from current state to either of requested states: " ++
      String.intercalate ", " stateList)
  | [], _, some path, chosen => .ok (chosen, path)
  | s :: rest, cheapestCost, cheapestPath, cheapestState =>
    match m.findPathToState page s with
    | .ok path =>
      if (m.pathCost path : WithTop Nat) < cheapestCost then
        ensureEitherGo m page stateList rest (m.pathCost path) (some path) s
      else ensureEitherGo m page stateList rest cheapestCost cheapestPath cheapestState
    | .error e =>
      if !(containsSub e "No route exists") then .error e
      else ensureEitherGo m page stateList rest cheapestCost cheapestPath cheapestState

/-- `ensureEitherState(stateList, ...)`, reduced to its route-selection core
(traversal and continuation act on the returned pair). -/
def ensureEitherState (m : Machine P) (page : P) (stateList : List String) :
    Except String (String × List (String × String)) :=
  m.ensureEitherGo page stateList stateList ⊤ none ""

/-- A valid edge path: `chainFrom m s p t` holds when `p` is a list of
`(from, to)` pairs of declared edges linking `s` to `t` (an empty path
requires `s = t`). -/
def chainFrom (m : Machine P) : String → List (String × String) → String → Bool
  | s, [], t => s == t
  | s, (a, b) :: rest, t => a == s && (m.edgeFor a b).isSome && chainFrom m b rest t

end Machine

/-- The success condition of composite-state expansion, read off the claim:
every partial state built so far matches at least one fragment at every
remaining layer. -/
def allMatched : List (String × List (String × LayerState)) → List Frag → Bool
  | [], _ => true
  | (layer, ls) :: rest, states =>
    states.all (fun st => !(layerMatches layer ls st).isEmpty) &&
      allMatched rest (states.flatMap (fun st => layerMatches layer ls st))

/-- Error-free composite-state expansion: the cross-product of partial states
with each layer's matching fragments, layer by layer. -/
def expandAll : List (String × List (String × LayerState)) → List Frag → List Frag
  | [], states => states
  | (layer, ls) :: rest, states =>
    expandAll rest (states.flatMap (fun st => layerMatches layer ls st))

/-- The first failure of composite-state expansion, in the algorithm's own
order: the layer name and offending partial state's base whose match list is
empty, if any. -/
def hasFailure : List (String × List (String × LayerState)) → List Frag →
    Option (String × String)
  | [], _ => none
  | (layer, ls) :: rest, states =>
    match states.find? (fun st => (layerMatches layer ls st).isEmpty) with
    | some st => some (layer, baseOf st)
    | none => hasFailure rest (states.flatMap (fun st => layerMatches layer ls st))

/-! Concrete machines used as witnesses and counterexamples. -/

/-- The spec's routing scenario: `foo → bar → baz → foo` at cost 1 each plus a
default transition `sentinel → foo` at cost 2; no predicate matches, and no
state is cached. -/
def cycleMachine : Machine Unit :=
  { states := ["foo", "bar", "baz"]
    stateTests :=
      [("foo", fun _ => false), ("bar", fun _ => false), ("baz", fun _ => false)]
    currentState := none
    neighbors :=
      [("foo", [("bar", ⟨1, 0⟩)]), ("bar", [("baz", ⟨1, 1⟩)]),
       ("baz", [("foo", ⟨1, 2⟩)]), (BAD_STATE, [("foo", ⟨2, 3⟩)])]
    fragmentTransitions := []
    layers := [] }

/-- A machine with a cached state whose predicate fails while a later state's
predicate passes. -/
def staleCacheMachine : Machine Unit :=
  { states := ["foo", "bar"]
    stateTests := [("foo", fun _ => false), ("bar", fun _ => true)]
    currentState := some "foo"
    neighbors := []
    fragmentTransitions := []
    layers := [] }

/-- The spec's expansion-failure scenario: a single `gender` fragment covering
`bar`, `baz`, `qux` but not the registered state `foo`. -/
def missingFragmentMachine : Machine Unit :=
  { states := ["foo", "bar", "baz", "qux"]
    stateTests :=
      [("foo", fun _ => false), ("bar", fun _ => false), ("baz", fun _ => false),
       ("qux", fun _ => false)]
    currentState := none
    neighbors := []
    fragmentTransitions := []
    layers := [("gender", [("male", ⟨["bar", "baz", "qux"], []⟩)])] }

/-- Two base states under one single-valued `gender` layer, with one fragment
transition `{base: foo} → {base: bar}`.  The fragment `{base: foo}` resolves
to exactly one full composite state, `{base: foo, gender: male}`. -/
def partialFragMachine : Machine Unit :=
  { states := ["foo", "bar"]
    stateTests := [("foo", fun _ => false), ("bar", fun _ => false)]
    currentState := none
    neighbors := []
    fragmentTransitions := [([("base", "foo")], [([("base", "bar")], ⟨1, 0⟩)])]
    layers := [("gender", [("male", ⟨["foo", "bar"], []⟩)])] }

/-- A machine with an existing `foo → bar` edge of cost 1 (logic token 5). -/
def existingEdgeMachine : Machine Unit :=
  { states := ["foo", "bar"]
    stateTests := [("foo", fun _ => false), ("bar", fun _ => false)]
    currentState := none
    neighbors := [("foo", [("bar", ⟨1, 5⟩)])]
    fragmentTransitions := [([("base", "foo")], [([("base", "bar")], ⟨1, 5⟩)])]
    layers := [] }

/-- A machine whose `qux` state is unreachable while `baz` is reachable:
`ensureEitherState` must skip the routeless candidate. -/
def eitherMachine : Machine Unit :=
  { states := ["foo", "bar", "baz", "qux"]
    stateTests :=
      [("foo", fun _ => false), ("bar", fun _ => false), ("baz", fun _ => false),
       ("qux", fun _ => false)]
    currentState := none
    neighbors :=
      [("foo", [("bar", ⟨1, 0⟩)]), ("bar", [("baz", ⟨1, 1⟩)]),
       ("baz", [("foo", ⟨1, 2⟩)]), (BAD_STATE, [("foo", ⟨2, 3⟩)])]
    fragmentTransitions := []
    layers := [] }

/-- The router loop invariant.  `src` is the (fallback-resolved) start,
`allNodes` the vertex set `states ++ [BAD_STATE]`, `unvisited` the remaining
worklist, `V` the vertex table.  Settled vertices have relaxed out-edges and
minimal tentative distances; predecessor pointers record a real edge whose
relaxation produced the stored distance; seeds sit at distance 0. -/
structure DijkstraInv {P : Type} (m : Machine P) (src : String)
    (allNodes unvisited : List String) (V : VMap) : Prop where
  nodup : unvisited.Nodup
  sub : ∀ x ∈ unvisited, x ∈ allNodes
  stable : ∀ x, x ∉ unvisited → ∀ v t, m.edgeFor x v = some t →
    (V v).distance ≤ (V x).distance + (t.cost : WithTop Nat)
  mono : ∀ x ∈ allNodes, x ∉ unvisited → ∀ w ∈ unvisited,
    (V x).distance ≤ (V w).distance
  prevSome : ∀ x u, (V x).prev = some u → ∃ t, m.edgeFor u x = some t ∧
    (V x).distance = (V u).distance + (t.cost : WithTop Nat) ∧
    (V x).distance ≠ ⊤ ∧ u ∉ unvisited
  prevNone : ∀ x, (V x).prev = none →
    ((x = src ∨ x = BAD_STATE) ∧ (V x).distance = 0) ∨ (V x).distance = ⊤
  seedZero : (V src).distance = 0 ∧ (V src).prev = none ∧
    (V BAD_STATE).distance = 0 ∧ (V BAD_STATE).prev = none
  outside : ∀ x, x ∉ allNodes → (V x).distance = ⊤ ∧ (V x).prev = none

/-! ## Association-table lemmas -/

theorem assocGet_nil {κ β : Type} [BEq κ] (x : κ) :
    assocGet ([] : List (κ × β)) x = none := rfl

theorem assocGet_cons {κ β : Type} [BEq κ] (kv : κ × β) (l : List (κ × β)) (x : κ) :
    assocGet (kv :: l) x = if kv.1 == x then some kv.2 else assocGet l x := by
  simp only [assocGet, List.find?]
  by_cases h : kv.1 == x <;> simp [h]

theorem assocGet_append {κ β : Type} [BEq κ] (l₁ l₂ : List (κ × β)) (x : κ) :
    assocGet (l₁ ++ l₂) x =
      match assocGet l₁ x with
      | some v => some v
      | none => assocGet l₂ x := by
  induction l₁ with
  | nil => simp [assocGet_nil]
  | cons kv rest ih =>
    simp only [List.cons_append, assocGet_cons]
    by_cases h : kv.1 == x <;> simp [h, ih]

theorem assocGet_assocSet {κ β : Type} [BEq κ] [LawfulBEq κ]
    (l : List (κ × β)) (k x : κ) (v : β) :
    assocGet (assocSet l k v) x = if k == x then some v else assocGet l x := by
  induction l with
  | nil => simp [assocSet, assocGet_cons, assocGet_nil]
  | cons kv rest ih =>
    simp only [assocSet]
    by_cases hk : kv.1 == k
    · replace hk : kv.1 = k := by simpa [beq_iff_eq] using hk
      subst hk
      by_cases h : kv.1 == x <;> simp [assocGet_cons, h]
    · simp only [hk, if_false, assocGet_cons]
      by_cases hx : kv.1 == x
      · replace hx : kv.1 = x := by simpa [beq_iff_eq] using hx
        subst hx
        have hk' : ¬ (k == kv.1) := by
          simp only [beq_iff_eq] at hk ⊢
          exact fun h' => hk h'.symm
        simp [assocGet_cons, hk']
      · simp [assocGet_cons, hx, ih]

theorem assocGet_setInBucket_self {κ : Type} [BEq κ] [LawfulBEq κ]
    (tbl : List (κ × List (κ × Transition))) (a b : κ) (t : Transition) :
    assocGet (setInBucket tbl a b t) a =
      (assocGet tbl a).map (fun bucket => assocSet bucket b t) := by
  induction tbl with
  | nil => simp [setInBucket, assocGet_nil]
  | cons kv rest ih =>
    simp only [setInBucket, List.map_cons]
    by_cases h : kv.1 == a
    · replace h : kv.1 = a := by simpa [beq_iff_eq] using h
      subst h
      simp [assocGet_cons]
    · simp only [h, if_false, assocGet_cons]
      simp only [setInBucket] at ih
      simp [h, ih]

theorem assocGet_setInBucket_ne {κ : Type} [BEq κ] [LawfulBEq κ]
    (tbl : List (κ × List (κ × Transition))) (a b x : κ) (t : Transition)
    (hxa : x ≠ a) :
    assocGet (setInBucket tbl a b t) x = assocGet tbl x := by
  induction tbl with
  | nil => simp [setInBucket]
  | cons kv rest ih =>
    simp only [setInBucket, List.map_cons]
    by_cases h : kv.1 == a
    · replace h : kv.1 = a := by simpa [beq_iff_eq] using h
      subst h
      have : ¬ (kv.1 == x) := by simpa [beq_iff_eq] using fun h' => hxa h'.symm
      simp only [beq_self_eq_true, if_true, assocGet_cons, this, if_false]
      simp only [setInBucket] at ih
      exact ih
    · simp only [h, if_false, assocGet_cons]
      simp only [setInBucket] at ih
      by_cases hx : kv.1 == x <;> simp [hx, ih]

theorem assocGet_ensureBucket_self {κ : Type} [BEq κ]
    (tbl : List (κ × List (κ × Transition))) (a : κ) [LawfulBEq κ] :
    assocGet (ensureBucket tbl a) a = some ((assocGet tbl a).getD []) := by
  unfold ensureBucket
  by_cases h : (assocGet tbl a).isSome
  · obtain ⟨bk, hbk⟩ := Option.isSome_iff_exists.mp h
    simp [h, hbk]
  · have hn : assocGet tbl a = none := Option.not_isSome_iff_eq_none.mp h
    simp [h, assocGet_append, hn, assocGet_cons]

theorem assocGet_ensureBucket_ne {κ : Type} [BEq κ] [LawfulBEq κ]
    (tbl : List (κ × List (κ × Transition))) (a x : κ) (hxa : x ≠ a) :
    assocGet (ensureBucket tbl a) x = assocGet tbl x := by
  unfold ensureBucket
  by_cases h : (assocGet tbl a).isSome
  · simp [h]
  · have hax : ¬ (a == x) := by simpa [beq_iff_eq] using fun h' => hxa h'.symm
    rw [if_neg h]
    simp only [assocGet_append, assocGet_cons, hax, if_false, assocGet_nil]
    cases assocGet tbl x <;> rfl

theorem edgeIn_store_self {κ : Type} [BEq κ] [LawfulBEq κ]
    (tbl : List (κ × List (κ × Transition))) (a b x : κ) (t : Transition) :
    edgeIn (setInBucket (ensureBucket tbl a) a b t) a x =
      if b == x then some t else edgeIn tbl a x := by
  unfold edgeIn
  rw [assocGet_setInBucket_self, assocGet_ensureBucket_self]
  show assocGet (assocSet ((assocGet tbl a).getD []) b t) x = _
  rw [assocGet_assocSet]
  by_cases hbx : b == x
  · simp [hbx]
  · simp only [hbx, if_false]
    cases hb : assocGet tbl a <;> simp [hb, assocGet_nil]

theorem edgeIn_ensureBucket {κ : Type} [BEq κ] [LawfulBEq κ]
    (tbl : List (κ × List (κ × Transition))) (a y : κ) :
    edgeIn (ensureBucket tbl a) a y = edgeIn tbl a y := by
  unfold edgeIn
  rw [assocGet_ensureBucket_self]
  cases hb : assocGet tbl a <;> simp [hb, assocGet_nil]

theorem edgeIn_store_ne {κ : Type} [BEq κ] [LawfulBEq κ]
    (tbl : List (κ × List (κ × Transition))) (a b x y : κ) (t : Transition)
    (hxa : x ≠ a) :
    edgeIn (setInBucket (ensureBucket tbl a) a b t) x y = edgeIn tbl x y := by
  unfold edgeIn
  rw [assocGet_setInBucket_ne _ _ _ _ _ hxa, assocGet_ensureBucket_ne _ _ _ hxa]

@[simp] theorem exceptBind_ok {ε α β : Type} (a : α) (f : α → Except ε β) :
    (Except.ok a >>= f) = f a := rfl

@[simp] theorem exceptBind_error {ε α β : Type} (e : ε) (f : α → Except ε β) :
    ((Except.error e : Except ε α) >>= f) = Except.error e := rfl

@[simp] theorem exceptMap_ok {ε α β : Type} (a : α) (f : α → β) :
    (Except.ok a : Except ε α).map f = Except.ok (f a) := rfl

@[simp] theorem exceptMap_error {ε α β : Type} (e : ε) (f : α → β) :
    (Except.error e : Except ε α).map f = Except.error e := rfl

theorem allStates_none_eq {P : Type} (m : Machine P) :
    m.allStates none = m.computeCompositeStates := by
  cases h : m.computeCompositeStates <;> simp [Machine.allStates, h]

theorem mem_filterByLayer {states : List Frag} {f S : Frag} :
    S ∈ filterByLayer states f ↔ S ∈ states ∧ isSubstate f S := by
  simp [filterByLayer, isSubstate, List.mem_filter]

/-! ## C7 and C8: current-state classification and its (absent) side effect -/

/-- **C7**: `whereAmI` returns the cached current state immediately when a
cache entry exists and its predicate evaluates true; otherwise it scans the
registered states in declaration (priority) order and returns the first whose
predicate evaluates true; and when additionally no predicate matches it
returns the unknown value (`none`, the embedding of the `null` result). -/
theorem C7_whereAmI_classification {P : Type} (m : Machine P) (page : P) :
    (∀ cs, m.currentState = some cs → m.testOf cs page = true →
      (m.whereAmI page).1 = some cs) ∧
    ((m.currentState = none ∨
        ∃ cs, m.currentState = some cs ∧ m.testOf cs page = false) →
      (m.whereAmI page).1 = m.states.find? (fun s => m.testOf s page)) ∧
    ((m.currentState = none ∨
        ∃ cs, m.currentState = some cs ∧ m.testOf cs page = false) →
      (∀ s ∈ m.states, m.testOf s page = false) →
      (m.whereAmI page).1 = none) := by
  refine ⟨?_, ?_, ?_⟩
  · intro cs hcs ht
    simp [Machine.whereAmI, hcs, ht]
  · rintro (hnone | ⟨cs, hcs, hf⟩)
    · simp [Machine.whereAmI, hnone]
    · simp [Machine.whereAmI, hcs, hf]
  · rintro (hnone | ⟨cs, hcs, hf⟩) hall
    · simp only [Machine.whereAmI, hnone]
      rw [List.find?_eq_none]
      intro s hs
      simp [hall s hs]
    · simp only [Machine.whereAmI, hcs, hf, Bool.false_eq_true, if_false]
      rw [List.find?_eq_none]
      intro s hs
      simp [hall s hs]

/-- Witness for C7 at `staleCacheMachine`: the cached state's predicate fails,
and the priority scan is returned. -/
theorem C7_whereAmI_classification_witness :
    (staleCacheMachine.currentState = none ∨
      ∃ cs, staleCacheMachine.currentState = some cs ∧
        staleCacheMachine.testOf cs () = false) ∧
    (staleCacheMachine.whereAmI ()).1 =
      staleCacheMachine.states.find? (fun s => staleCacheMachine.testOf s ()) :=
  ⟨Or.inr ⟨"foo", rfl, rfl⟩,
    (C7_whereAmI_classification staleCacheMachine ()).2.1 (Or.inr ⟨"foo", rfl, rfl⟩)⟩

/-- **C8** counterexample: on `staleCacheMachine`, `whereAmI` returns
`"bar"` via the priority scan, yet the machine's cached current-state field
still holds `"foo"` after the call — the claimed cache-updating side effect
does not happen. -/
theorem C8_whereAmI_cache_counterexample :
    (staleCacheMachine.whereAmI ()).1 = some "bar" ∧
    ((staleCacheMachine.whereAmI ()).2).currentState = some "foo" ∧
    (some "foo" : Option String) ≠ some "bar" := by
  refine ⟨rfl, rfl, by simp⟩

/-- **C8** (amended): `whereAmI` has no side effect: it leaves the machine —
in particular the cached current-state field — entirely unchanged.  (The
cache is updated during path traversal, not by `whereAmI`.) -/
theorem C8_whereAmI_no_side_effect {P : Type} (m : Machine P) (page : P) :
    (m.whereAmI page).2 = m := by
  cases h : m.currentState with
  | none => simp [Machine.whereAmI, h]
  | some cs =>
    simp only [Machine.whereAmI, h]
    split <;> rfl

/-- **C2**: on the scenario machine (`foo → bar → baz → foo` at cost 1 each,
default `sentinel → foo` at cost 2, no matching predicate and no cache, so
the current state resolves to the sentinel), `findPathToState("baz")` returns
exactly the three-edge path through the default transition. -/
theorem C2_uninitialized_path_scenario :
    cycleMachine.findPathToState () "baz" =
      .ok [(BAD_STATE, "foo"), ("foo", "bar"), ("bar", "baz")] := rfl

/-- **C5**: adding a transition between registered, distinct endpoints that
already carry an edge of cost `c`, with new cost `c' ≥ c`, throws the
"cheaper path" error naming `c`, and the failed call leaves the machine —
hence the stored edge's cost and transition logic — unchanged. -/
theorem C5_addStateTransition_cost_monotonic {P : Type} (m : Machine P)
    (startState endState : String) (logic c' : Nat) (t : Transition)
    (hs : (m.testFor startState).isSome) (he : (m.testFor endState).isSome)
    (hne : startState ≠ endState)
    (hedge : m.edgeFor startState endState = some t) (hc : t.cost ≤ c') :
    m.addStateTransition startState endState logic c' =
      (m, some ("A cheaper path (cost = " ++ toString t.cost ++ ") from \"" ++
        startState ++ "\" to \"" ++ endState ++ "\" already exists.")) ∧
    ((m.addStateTransition startState endState logic c').1).edgeFor
        startState endState = some t := by
  obtain ⟨f, hf⟩ := Option.isSome_iff_exists.mp hs
  obtain ⟨g, hg⟩ := Option.isSome_iff_exists.mp he
  have main : m.addStateTransition startState endState logic c' =
      (m, some ("A cheaper path (cost = " ++ toString t.cost ++ ") from \"" ++
        startState ++ "\" to \"" ++ endState ++ "\" already exists.")) := by
    unfold Machine.addStateTransition
    simp [hf, hg, hne, hedge, hc]
  refine ⟨main, ?_⟩
  rw [main]
  exact hedge

/-- Witness for C5 at `existingEdgeMachine`: re-adding `foo → bar` at the
equal cost 1 fails with the "cheaper path" error and changes nothing. -/
theorem C5_addStateTransition_cost_monotonic_witness :
    ((existingEdgeMachine.testFor "foo").isSome ∧
      (existingEdgeMachine.testFor "bar").isSome ∧
      existingEdgeMachine.edgeFor "foo" "bar" = some ⟨1, 5⟩) ∧
    existingEdgeMachine.addStateTransition "foo" "bar" 9 1 =
      (existingEdgeMachine,
        some "A cheaper path (cost = 1) from \"foo\" to \"bar\" already exists.") ∧
    ((existingEdgeMachine.addStateTransition "foo" "bar" 9 1).1).edgeFor
        "foo" "bar" = some ⟨1, 5⟩ :=
  ⟨⟨rfl, rfl, rfl⟩,
    (C5_addStateTransition_cost_monotonic existingEdgeMachine "foo" "bar" 9 1
        ⟨1, 5⟩ rfl rfl (by simp) rfl (by simp)).1,
    (C5_addStateTransition_cost_monotonic existingEdgeMachine "foo" "bar" 9 1
        ⟨1, 5⟩ rfl rfl (by simp) rfl (by simp)).2⟩

/-- **C10**: `addDefaultStateTransition` validates only that the end state
exists (else the "does not exist" error); a successful call unconditionally
(re)stores the sentinel edge to that end state — regardless of any previously
stored cost — and leaves the sentinel's default edges to other end states,
and every other state's edge bucket, untouched. -/
theorem C10_addDefaultStateTransition_unconditional {P : Type} (m : Machine P)
    (endState : String) (logic cost : Nat) :
    ((m.testFor endState).isNone →
      m.addDefaultStateTransition endState logic cost =
        (m, some ("End state \"" ++ endState ++ "\" does not exist."))) ∧
    ((m.testFor endState).isSome →
      (m.addDefaultStateTransition endState logic cost).2 = none ∧
      (∀ e, ((m.addDefaultStateTransition endState logic cost).1).edgeFor BAD_STATE e =
        if e = endState then some ⟨cost, logic⟩ else m.edgeFor BAD_STATE e) ∧
      (∀ s, s ≠ BAD_STATE →
        ((m.addDefaultStateTransition endState logic cost).1).neighborsOf s =
          m.neighborsOf s)) := by
  constructor
  · intro h
    unfold Machine.addDefaultStateTransition
    simp [h]
  · intro h
    have hn : (m.testFor endState).isNone = false := by
      simp [Option.isNone_iff_eq_none]
      exact Option.isSome_iff_exists.mp h |>.elim (fun f hf => by simp [hf])
    refine ⟨?_, ?_, ?_⟩
    · unfold Machine.addDefaultStateTransition
      simp [hn]
    · intro e
      unfold Machine.addDefaultStateTransition
      simp only [hn, Bool.false_eq_true, if_false]
      show edgeIn (setInBucket (ensureBucket m.neighbors BAD_STATE) BAD_STATE endState
        ⟨cost, logic⟩) BAD_STATE e = _
      rw [edgeIn_store_self]
      by_cases he : e = endState
      · simp [he]
      · have : ¬ (endState == e) := by simpa [beq_iff_eq] using fun h' => he h'.symm
        simp only [this, if_false, he, if_false]
        rfl
    · intro s hsb
      unfold Machine.addDefaultStateTransition
      simp only [hn, Bool.false_eq_true, if_false]
      show assocGet (setInBucket (ensureBucket m.neighbors BAD_STATE) BAD_STATE endState
        ⟨cost, logic⟩) s = _
      rw [assocGet_setInBucket_ne _ _ _ _ _ hsb, assocGet_ensureBucket_ne _ _ _ hsb]
      rfl

/-- **C6** counterexample: on `partialFragMachine`, whose fragment-transition
table stores `{base: foo} → {base: bar}` at cost 1, re-adding the same
fragment transition with the *equal* cost 1 does not raise — the call
succeeds and replaces the stored edge (logic token 0 becomes 77) — refuting
the claim that every call with cost `c' ≥ c` raises an error. -/
theorem C6_equal_cost_replaces_counterexample :
    edgeIn partialFragMachine.fragmentTransitions [("base", "foo")] [("base", "bar")] =
      some ⟨1, 0⟩ ∧
    (partialFragMachine.addCompositeStateTransition
        [("base", "foo")] [("base", "bar")] 77 1).2 = none ∧
    edgeIn ((partialFragMachine.addCompositeStateTransition
        [("base", "foo")] [("base", "bar")] 77 1).1).fragmentTransitions
      [("base", "foo")] [("base", "bar")] = some ⟨1, 77⟩ :=
  ⟨rfl, rfl, rfl⟩

/-- **C6** (amended): for an existing fragment transition of cost `c` under
the canonicalized start/end keys, `addCompositeStateTransition` with cost
`c'` raises the "cheaper path" error — leaving the stored edge unchanged —
exactly when `c < c'`; with `c' ≤ c` (equal cost included) it succeeds and
replaces the stored edge. -/
theorem C6_addCompositeStateTransition_replacement {P : Type} (m : Machine P)
    (startState endState : Frag) (logic c' : Nat) (t0 : Transition)
    (hv1 : m.isValidState startState = .ok true)
    (hv2 : m.isValidState (spread startState endState) = .ok true)
    (hedge : edgeIn m.fragmentTransitions (canonFrag startState) (canonFrag endState) =
      some t0) :
    (t0.cost < c' →
      (m.addCompositeStateTransition startState endState logic c').2 =
        some ("A cheaper path (cost = " ++ toString t0.cost ++ ") for " ++
          stateToString startState ++ " >> " ++ stateToString endState ++
          " transition already exists.") ∧
      edgeIn ((m.addCompositeStateTransition startState endState logic c').1).fragmentTransitions
        (canonFrag startState) (canonFrag endState) = some t0) ∧
    (c' ≤ t0.cost →
      (m.addCompositeStateTransition startState endState logic c').2 = none ∧
      edgeIn ((m.addCompositeStateTransition startState endState logic c').1).fragmentTransitions
        (canonFrag startState) (canonFrag endState) = some ⟨c', logic⟩) := by
  have hedge' : edgeIn (ensureBucket m.fragmentTransitions (canonFrag startState))
      (canonFrag startState) (canonFrag endState) = some t0 := by
    rw [edgeIn_ensureBucket]
    exact hedge
  constructor
  · intro hlt
    unfold Machine.addCompositeStateTransition
    simp only [hv1, hv2, hedge', hlt, if_true]
    exact ⟨trivial, trivial⟩
  · intro hle
    have hnlt : ¬ t0.cost < c' := not_lt.mpr hle
    unfold Machine.addCompositeStateTransition
    simp only [hv1, hv2, hedge', hnlt, if_false]
    refine ⟨trivial, ?_⟩
    rw [edgeIn_store_self]
    simp

/-- Witness for the amended C6 at `partialFragMachine`: the equal-cost call
succeeds and replaces. -/
theorem C6_addCompositeStateTransition_replacement_witness :
    (partialFragMachine.isValidState [("base", "foo")] = .ok true ∧
      partialFragMachine.isValidState
        (spread [("base", "foo")] [("base", "bar")]) = .ok true ∧
      edgeIn partialFragMachine.fragmentTransitions
        (canonFrag [("base", "foo")]) (canonFrag [("base", "bar")]) = some ⟨1, 0⟩) ∧
    (partialFragMachine.addCompositeStateTransition
        [("base", "foo")] [("base", "bar")] 77 1).2 = none ∧
    edgeIn ((partialFragMachine.addCompositeStateTransition
        [("base", "foo")] [("base", "bar")] 77 1).1).fragmentTransitions
      (canonFrag [("base", "foo")]) (canonFrag [("base", "bar")]) = some ⟨1, 77⟩ :=
  ⟨⟨rfl, rfl, rfl⟩,
    (C6_addCompositeStateTransition_replacement partialFragMachine
      [("base", "foo")] [("base", "bar")] 77 1 ⟨1, 0⟩ rfl rfl rfl).2 (by simp)⟩

theorem allStates_some_shape {P : Type} (m : Machine P) (F : Frag) (all : List Frag)
    (hcompute : m.computeCompositeStates = .ok all) (lst : List Frag)
    (h : m.allStates (some F) = .ok lst) :
    filterByLayer all F = lst := by
  unfold Machine.allStates at h
  rw [hcompute] at h
  simp only [exceptBind_ok] at h
  cases hk : F.find? (fun kv => !(kv.1 == "base") && (m.layerFor kv.1).isNone) with
  | some kv =>
    rw [hk] at h
    simp at h
  | none =>
    rw [hk] at h
    exact Except.ok.inj h

/-- **C4** counterexample: on `partialFragMachine` the fragment
`{base: foo}` resolves to exactly one full composite state
`{base: foo, gender: male}`, and the transition `{base: foo} → {base: bar}`
applies to it; but `getNeighbors` returns `{base: bar}` — the end fragment
merged onto the *passed* fragment — not the claimed
`{base: bar, gender: male}` obtained by merging onto the resolved full state
(the returned neighbor has no `gender` key at all). -/
theorem C4_getNeighbors_merge_counterexample :
    partialFragMachine.allStates (some [("base", "foo")]) =
      .ok [[("base", "foo"), ("gender", "male")]] ∧
    partialFragMachine.getNeighbors [("base", "foo")] = .ok [[("base", "bar")]] ∧
    spread [("base", "foo"), ("gender", "male")] [("base", "bar")] =
      [("base", "bar"), ("gender", "male")] ∧
    ([("base", "bar")] : Frag) ≠ [("base", "bar"), ("gender", "male")] ∧
    List.lookup "gender" ([("base", "bar")] : Frag) ≠ some "male" := by
  refine ⟨rfl, rfl, rfl, by simp, by decide⟩

/-- **C4** (amended): for a composite fragment argument `F` (with the
composite expansion succeeding), `getNeighbors F` throws the "not a valid
state" error when `F` is a submap of zero expanded states, throws the
"define more layers" ambiguity error when the expansion filtered by `F` has
two or more entries, and when it has exactly one entry `S` returns, for every
fragment transition whose start fragment is a submap of `S`, the transition's
end fragment merged on top of the *passed* fragment `F` (which coincides with
merging onto `S` only when `F` is itself the complete resolved state). -/
theorem C4_getNeighbors_resolution {P : Type} (m : Machine P) (F : Frag)
    (all : List Frag) (hall : m.allStates none = .ok all) :
    (all.filter (fun st => isSubstate F st) = [] →
      m.getNeighbors F = .error (stateToString F ++ " is not a valid state.")) ∧
    (∀ S S' Ss, m.allStates (some F) = .ok (S :: S' :: Ss) →
      m.getNeighbors F = .error ("Multiple composite states match " ++
        stateToString F ++ ", define more layers to resolve ambiguity.")) ∧
    (∀ S, m.allStates (some F) = .ok [S] →
      m.getNeighbors F = .ok (m.fragmentTransitions.flatMap (fun bucket =>
        if isSubstate bucket.1 S then bucket.2.map (fun e => spread F e.1)
        else []))) := by
  have hcompute : m.computeCompositeStates = .ok all := by
    rw [← allStates_none_eq]; exact hall
  refine ⟨?_, ?_, ?_⟩
  · intro hfil
    have hnone : ∀ st ∈ all, ¬ (isSubstate F st = true) := by
      simpa using List.filter_eq_nil_iff.mp hfil
    have hvalid : m.isValidState F = .ok false := by
      unfold Machine.isValidState
      rw [hall]
      simp only [exceptMap_ok]
      congr 1
      rw [List.any_eq_false]
      exact hnone
    simp [Machine.getNeighbors, hvalid]
    rfl
  · intro S S' Ss hsome
    have hmem : S ∈ filterByLayer all F := by
      have := allStates_some_shape m F all hcompute (S :: S' :: Ss) hsome
      rw [this]
      simp
    have hvalid : m.isValidState F = .ok true := by
      unfold Machine.isValidState
      rw [hall]
      simp only [exceptMap_ok]
      congr 1
      rw [List.any_eq_true]
      exact ⟨S, (mem_filterByLayer.mp hmem).1, (mem_filterByLayer.mp hmem).2⟩
    simp [Machine.getNeighbors, hvalid, hsome]
    rfl
  · intro S hone
    have hmem : S ∈ filterByLayer all F := by
      have := allStates_some_shape m F all hcompute [S] hone
      rw [this]
      simp
    have hvalid : m.isValidState F = .ok true := by
      unfold Machine.isValidState
      rw [hall]
      simp only [exceptMap_ok]
      congr 1
      rw [List.any_eq_true]
      exact ⟨S, (mem_filterByLayer.mp hmem).1, (mem_filterByLayer.mp hmem).2⟩
    simp [Machine.getNeighbors, hvalid, hone]
    rfl

/-- Witness for the amended C4 at `partialFragMachine`: the unique resolution
yields the neighbor list merged onto the passed fragment. -/
theorem C4_getNeighbors_resolution_witness :
    (partialFragMachine.allStates none =
      .ok [[("base", "foo"), ("gender", "male")], [("base", "bar"), ("gender", "male")]] ∧
     partialFragMachine.allStates (some [("base", "foo")]) =
      .ok [[("base", "foo"), ("gender", "male")]]) ∧
    partialFragMachine.getNeighbors [("base", "foo")] = .ok [[("base", "bar")]] := by
  have h := (C4_getNeighbors_resolution partialFragMachine [("base", "foo")]
    [[("base", "foo"), ("gender", "male")], [("base", "bar"), ("gender", "male")]]
    rfl).2.2 [("base", "foo"), ("gender", "male")] rfl
  exact ⟨⟨rfl, rfl⟩, by simpa using h⟩

/-- Witness for C10 at `cycleMachine`: re-targeting the default edge at a
higher cost succeeds and replaces it, leaving the other default edge intact. -/
theorem C10_addDefaultStateTransition_unconditional_witness :
    (cycleMachine.testFor "bar").isSome ∧
    (cycleMachine.addDefaultStateTransition "bar" 9 7).2 = none ∧
    ((cycleMachine.addDefaultStateTransition "bar" 9 7).1).edgeFor
        BAD_STATE "bar" = some ⟨7, 9⟩ ∧
    ((cycleMachine.addDefaultStateTransition "bar" 9 7).1).edgeFor
        BAD_STATE "foo" = some ⟨2, 3⟩ := by
  have h := (C10_addDefaultStateTransition_unconditional cycleMachine "bar" 9 7).2 rfl
  refine ⟨rfl, h.1, ?_, ?_⟩
  · have := h.2.1 "bar"
    simpa using this
  · have := h.2.1 "foo"
    simpa using this

/-! ## C3: composite-state expansion validity -/

theorem expandLayer_ok (layer : String) (ls : List (String × LayerState)) :
    ∀ states : List Frag,
      (∀ st ∈ states, (layerMatches layer ls st).isEmpty = false) →
      expandLayer layer ls states =
        .ok (states.flatMap (fun st => layerMatches layer ls st)) := by
  intro states
  induction states with
  | nil => intro _; rfl
  | cons st rest ih =>
    intro h
    have hst : (layerMatches layer ls st).isEmpty = false := h st (List.mem_cons_self _ _)
    have hrest : ∀ s ∈ rest, (layerMatches layer ls s).isEmpty = false :=
      fun s hs => h s (List.mem_cons_of_mem _ hs)
    simp only [expandLayer, hst, Bool.false_eq_true, if_false, ih hrest, exceptBind_ok,
      List.flatMap_cons]
    rfl

theorem expandLayer_error_of_find (layer : String) (ls : List (String × LayerState)) :
    ∀ (states : List Frag) (st : Frag),
      states.find? (fun s => (layerMatches layer ls s).isEmpty) = some st →
      expandLayer layer ls states = .error (noCompositeMsg layer (baseOf st)) := by
  intro states
  induction states with
  | nil => intro st h; simp [List.find?] at h
  | cons hd rest ih =>
    intro st h
    rw [List.find?_cons] at h
    by_cases hhd : (layerMatches layer ls hd).isEmpty = true
    · simp only [hhd] at h
      injection h with h'
      subst h'
      simp [expandLayer, hhd]
    · have hhd' : (layerMatches layer ls hd).isEmpty = false := by simpa using hhd
      simp only [hhd'] at h
      have hrec := ih st h
      simp [expandLayer, hhd', hrec]

theorem computeLayers_characterization :
    ∀ (layers : List (String × List (String × LayerState))) (states : List Frag),
      computeLayers layers states =
        match hasFailure layers states with
        | some (L, B) => .error (noCompositeMsg L B)
        | none => .ok (expandAll layers states) := by
  intro layers
  induction layers with
  | nil => intro states; rfl
  | cons p rest ih =>
    obtain ⟨layer, ls⟩ := p
    intro states
    cases hf : states.find? (fun st => (layerMatches layer ls st).isEmpty) with
    | some st =>
      have herr := expandLayer_error_of_find layer ls states st hf
      simp [computeLayers, hasFailure, hf, herr]
    | none =>
      have hok : ∀ s ∈ states, (layerMatches layer ls s).isEmpty = false := by
        intro s hs
        simpa using List.find?_eq_none.mp hf s hs
      have hexp := expandLayer_ok layer ls states hok
      simp [computeLayers, hasFailure, hf, hexp, expandAll, ih]

theorem hasFailure_none_iff_allMatched :
    ∀ (layers : List (String × List (String × LayerState))) (states : List Frag),
      hasFailure layers states = none ↔ allMatched layers states = true := by
  intro layers
  induction layers with
  | nil => intro states; simp [hasFailure, allMatched]
  | cons p rest ih =>
    obtain ⟨layer, ls⟩ := p
    intro states
    cases hf : states.find? (fun st => (layerMatches layer ls st).isEmpty) with
    | some st =>
      simp only [hasFailure, hf]
      constructor
      · intro h; cases h
      · intro h
        exfalso
        have hmem : st ∈ states := List.mem_of_find?_eq_some hf
        have hpred : (layerMatches layer ls st).isEmpty = true := by
          simpa using List.find?_some hf
        rw [allMatched, Bool.and_eq_true, List.all_eq_true] at h
        have := h.1 st hmem
        simp [hpred] at this
    | none =>
      have hall : states.all (fun st => !(layerMatches layer ls st).isEmpty) = true := by
        rw [List.all_eq_true]
        intro st hst
        simpa using List.find?_eq_none.mp hf st hst
      simp [hasFailure, hf, allMatched, hall, ih]

/-- **C3**: composite-state expansion (`computeCompositeStates`, hence
`allStates`) is exactly characterized by its first failure: it throws
`No composite state of type "L" exists for base state "B".` for the first
partial state (built layer by layer, after dependency filtering) whose base
`B` matches no fragment of layer `L`, and succeeds — producing the full
cross-product — precisely when every partial state matches at least one
fragment at every layer. -/
theorem C3_compositeExpansion_validity {P : Type} (m : Machine P) :
    (m.computeCompositeStates =
      match hasFailure m.layers (m.states.map (fun s => [("base", s)])) with
      | some (L, B) => .error (noCompositeMsg L B)
      | none => .ok (expandAll m.layers (m.states.map (fun s => [("base", s)])))) ∧
    (hasFailure m.layers (m.states.map (fun s => [("base", s)])) = none ↔
      allMatched m.layers (m.states.map (fun s => [("base", s)])) = true) ∧
    m.allStates none = m.computeCompositeStates :=
  ⟨computeLayers_characterization m.layers _, hasFailure_none_iff_allMatched _ _,
    allStates_none_eq m⟩

/-! ## C9: ensureEitherState candidate selection -/

theorem ensureEitherGo_propagates {P : Type} (m : Machine P) (page : P)
    (stateList : List String) :
    ∀ (l1 : List String) (s : String) (l2 : List String) (e : String)
      (cc : WithTop Nat) (cp : Option (List (String × String))) (cs : String),
      (∀ s' ∈ l1, (∃ p, m.findPathToState page s' = .ok p) ∨
        (∃ e', m.findPathToState page s' = .error e' ∧
          containsSub e' "No route exists" = true)) →
      m.findPathToState page s = .error e →
      containsSub e "No route exists" = false →
      m.ensureEitherGo page stateList (l1 ++ s :: l2) cc cp cs = .error e := by
  intro l1
  induction l1 with
  | nil =>
    intro s l2 e cc cp cs _ herr hnr
    simp [Machine.ensureEitherGo, herr, hnr]
  | cons h0 l1' ih =>
    intro s l2 e cc cp cs hpre herr hnr
    have h0case := hpre h0 (List.mem_cons_self _ _)
    have hrest : ∀ s' ∈ l1',
        (∃ p, m.findPathToState page s' = .ok p) ∨
        (∃ e', m.findPathToState page s' = .error e' ∧
          containsSub e' "No route exists" = true) :=
      fun s' hs' => hpre s' (List.mem_cons_of_mem _ hs')
    rcases h0case with ⟨p, hp⟩ | ⟨e', he', hnr'⟩
    · rw [List.cons_append]
      simp only [Machine.ensureEitherGo, hp]
      split
      · exact ih s l2 e _ _ _ hrest herr hnr
      · exact ih s l2 e _ _ _ hrest herr hnr
    · rw [List.cons_append]
      simp only [Machine.ensureEitherGo, he', hnr', Bool.not_true, Bool.false_eq_true,
        if_false]
      exact ih s l2 e _ _ _ hrest herr hnr

theorem ensureEitherGo_all_noroute {P : Type} (m : Machine P) (page : P)
    (stateList : List String) :
    ∀ (rest : List String) (cc : WithTop Nat) (cs : String),
      (∀ s ∈ rest, ∃ e, m.findPathToState page s = .error e ∧
        containsSub e "No route exists" = true) →
      m.ensureEitherGo page stateList rest cc none cs =
        .error ("No route exists from current state to either of requested states: " ++
          String.intercalate ", " stateList) := by
  intro rest
  induction rest with
  | nil => intro cc cs _; rfl
  | cons s0 rest' ih =>
    intro cc cs hall
    obtain ⟨e, he, hnr⟩ := hall s0 (List.mem_cons_self _ _)
    simp only [Machine.ensureEitherGo, he, hnr, Bool.not_true, Bool.false_eq_true, if_false]
    exact ih cc cs (fun s hs => hall s (List.mem_cons_of_mem _ hs))

theorem ensureEitherGo_ok_spec {P : Type} (m : Machine P) (page : P)
    (stateList : List String) :
    ∀ (rest processed : List String)
      (cc : WithTop Nat) (cp : Option (List (String × String))) (cs : String),
      (match cp with
       | none => cc = ⊤ ∧ ∀ s' ∈ processed, ∀ q, m.findPathToState page s' ≠ .ok q
       | some p0 => m.findPathToState page cs = .ok p0 ∧
           cc = (m.pathCost p0 : WithTop Nat) ∧ cs ∈ processed ∧
           ∀ s' ∈ processed, ∀ q, m.findPathToState page s' = .ok q →
             cc ≤ (m.pathCost q : WithTop Nat)) →
      ∀ s p, m.ensureEitherGo page stateList rest cc cp cs = .ok (s, p) →
        s ∈ processed ++ rest ∧ m.findPathToState page s = .ok p ∧
        ∀ s' ∈ processed ++ rest, ∀ q, m.findPathToState page s' = .ok q →
          m.pathCost p ≤ m.pathCost q := by
  intro rest
  induction rest with
  | nil =>
    intro processed cc cp cs hinv s p hok
    cases cp with
    | none => simp [Machine.ensureEitherGo] at hok
    | some p0 =>
      obtain ⟨hF, hcc, hmem, hmin⟩ := hinv
      have hok' : cs = s ∧ p0 = p := by
        simpa [Machine.ensureEitherGo] using hok
      obtain ⟨rfl, rfl⟩ := hok'
      refine ⟨by simpa using hmem, hF, ?_⟩
      intro s' hs' q hq
      have := hmin s' (by simpa using hs') q hq
      rw [hcc] at this
      exact_mod_cast this
  | cons s0 rest' ih =>
    intro processed cc cp cs hinv s p hok
    rw [show processed ++ s0 :: rest' = (processed ++ [s0]) ++ rest' by simp]
    cases hF : m.findPathToState page s0 with
    | ok path =>
      simp only [Machine.ensureEitherGo, hF] at hok
      by_cases hlt : (m.pathCost path : WithTop Nat) < cc
      · rw [if_pos hlt] at hok
        refine ih (processed ++ [s0]) _ _ _ ?_ s p hok
        refine ⟨hF, rfl, by simp, ?_⟩
        intro s' hs' q hq
        rcases (List.mem_append.mp hs') with hs'p | hs's0
        · cases cp with
          | none => exact absurd hq (hinv.2 s' hs'p q)
          | some p0 =>
            have := hinv.2.2.2 s' hs'p q hq
            exact le_of_lt (lt_of_lt_of_le hlt this)
        · have : s' = s0 := by simpa using hs's0
          subst this
          rw [hF] at hq
          injection hq with hq'
          subst hq'
          exact le_refl _
      · rw [if_neg hlt] at hok
        cases cp with
        | none =>
          exfalso
          exact hlt (by rw [hinv.1]; exact WithTop.coe_lt_top _)
        | some p0 =>
          obtain ⟨hF0, hcc, hmem0, hmin0⟩ := hinv
          refine ih (processed ++ [s0]) _ _ _ ?_ s p hok
          refine ⟨hF0, hcc, by simp [hmem0], ?_⟩
          intro s' hs' q hq
          rcases (List.mem_append.mp hs') with hs'p | hs's0
          · exact hmin0 s' hs'p q hq
          · have : s' = s0 := by simpa using hs's0
            subst this
            rw [hF] at hq
            injection hq with hq'
            subst hq'
            exact not_lt.mp hlt
    | error e =>
      by_cases hnr : containsSub e "No route exists"
      · simp only [Machine.ensureEitherGo, hF, hnr, Bool.not_true, Bool.false_eq_true,
          if_false] at hok
        refine ih (processed ++ [s0]) _ _ _ ?_ s p hok
        cases cp with
        | none =>
          refine ⟨hinv.1, ?_⟩
          intro s' hs' q hq
          rcases (List.mem_append.mp hs') with hs'p | hs's0
          · exact hinv.2 s' hs'p q hq
          · have : s' = s0 := by simpa using hs's0
            subst this
            rw [hF] at hq
            cases hq
        | some p0 =>
          obtain ⟨hF0, hcc, hmem0, hmin0⟩ := hinv
          refine ⟨hF0, hcc, by simp [hmem0], ?_⟩
          intro s' hs' q hq
          rcases (List.mem_append.mp hs') with hs'p | hs's0
          · exact hmin0 s' hs'p q hq
          · have : s' = s0 := by simpa using hs's0
            subst this
            rw [hF] at hq
            cases hq
      · have hnr' : containsSub e "No route exists" = false := by simpa using hnr
        simp [Machine.ensureEitherGo, hF, hnr'] at hok

/-- **C9**: the candidate loop of `ensureEitherState` (whose successful result
is the pair — chosen state name, traversed path — that the source hands to
`traversePath` and the continuation):
(1) a candidate failure other than a "No route exists" error propagates
immediately, provided every earlier candidate either produced a path or
failed with a "No route exists" error;
(2) a successful selection is a listed candidate whose computed path has
total cost (per `pathCost`, the source's reduce over edge costs) less than or
equal to the cost of every candidate's computed path;
(3) when every candidate fails with a "No route exists" error, the call
raises the "no route to either" error. -/
theorem C9_ensureEitherState_selection {P : Type} (m : Machine P) (page : P)
    (stateList : List String) :
    (∀ (l1 : List String) (s : String) (l2 : List String) (e : String),
      stateList = l1 ++ s :: l2 →
      (∀ s' ∈ l1, (∃ p, m.findPathToState page s' = .ok p) ∨
        (∃ e', m.findPathToState page s' = .error e' ∧
          containsSub e' "No route exists" = true)) →
      m.findPathToState page s = .error e →
      containsSub e "No route exists" = false →
      m.ensureEitherState page stateList = .error e) ∧
    (∀ s p, m.ensureEitherState page stateList = .ok (s, p) →
      s ∈ stateList ∧ m.findPathToState page s = .ok p ∧
      ∀ s' ∈ stateList, ∀ q, m.findPathToState page s' = .ok q →
        m.pathCost p ≤ m.pathCost q) ∧
    ((∀ s ∈ stateList, ∃ e, m.findPathToState page s = .error e ∧
        containsSub e "No route exists" = true) →
      m.ensureEitherState page stateList =
        .error ("No route exists from current state to either of requested states: " ++
          String.intercalate ", " stateList)) := by
  refine ⟨?_, ?_, ?_⟩
  · intro l1 s l2 e hdec hpre herr hnr
    unfold Machine.ensureEitherState
    rw [hdec] at *
    exact ensureEitherGo_propagates m page _ l1 s l2 e ⊤ none "" hpre herr hnr
  · intro s p hok
    have := ensureEitherGo_ok_spec m page stateList stateList [] ⊤ none ""
      ⟨rfl, by simp⟩ s p hok
    simpa using this
  · intro hall
    unfold Machine.ensureEitherState
    exact ensureEitherGo_all_noroute m page stateList stateList ⊤ "" hall

/-- Witness for C9 at `eitherMachine`: the single candidate `qux` is
unreachable, so the call raises the "no route to either" error. -/
theorem C9_ensureEitherState_selection_witness :
    eitherMachine.findPathToState () "qux" =
      .error ("No route exists from \"" ++ BAD_STATE ++
        "\" (current) to \"qux\" and no default route exists.") ∧
    eitherMachine.ensureEitherState () ["qux"] =
      .error "No route exists from current state to either of requested states: qux" :=
  ⟨rfl,
    (C9_ensureEitherState_selection eitherMachine () ["qux"]).2.2
      (by
        intro s hs
        rw [List.mem_singleton] at hs
        subst hs
        exact ⟨_, rfl, rfl⟩)⟩

/-! ## C1: shortest-path optimality of the router -/

theorem assocGet_mem {κ β : Type} [BEq κ] [LawfulBEq κ]
    {tbl : List (κ × β)} {k : κ} {b : β} (h : assocGet tbl k = some b) :
    (k, b) ∈ tbl := by
  unfold assocGet at h
  cases hf : List.find? (fun kv => kv.1 == k) tbl with
  | none => simp [hf] at h
  | some kv =>
    rw [hf] at h
    have hmem := List.mem_of_find?_eq_some hf
    have h1 : kv.1 = k := by simpa using List.find?_some hf
    have h2 : kv.2 = b := by simpa using h
    have : kv = (k, b) := by
      cases kv
      simp_all
    rw [← this]
    exact hmem

theorem findMinNode_none (V : VMap) :
    ∀ (l : List String) (acc : Option String × WithTop Nat),
      (acc.1 = none → acc.2 = ⊤) →
      (findMinNode V l acc).1 = none →
      acc.1 = none ∧ ∀ w ∈ l, (V w).distance = ⊤ := by
  intro l
  induction l with
  | nil =>
    intro acc hacc h
    exact ⟨h, by simp⟩
  | cons s rest ih =>
    intro acc hacc h
    simp only [findMinNode] at h
    by_cases hs : (V s).distance < acc.2
    · rw [if_pos hs] at h
      have := ih (some s, (V s).distance) (by simp) h
      simp at this
    · rw [if_neg hs] at h
      have hres := ih acc hacc h
      refine ⟨hres.1, ?_⟩
      intro w hw
      rcases List.mem_cons.mp hw with rfl | hw'
      · rw [hacc hres.1] at hs
        rwa [WithTop.lt_top_iff_ne_top, not_not] at hs
      · exact hres.2 w hw'

theorem findMinNode_some_mem (V : VMap) :
    ∀ (l : List String) (acc : Option String × WithTop Nat) (n : String)
      (d : WithTop Nat),
      (∀ n0, acc.1 = some n0 → acc.2 = (V n0).distance) →
      findMinNode V l acc = (some n, d) →
      d = (V n).distance ∧ (n ∈ l ∨ acc.1 = some n) := by
  intro l
  induction l with
  | nil =>
    intro acc n d hacc h
    simp only [findMinNode] at h
    subst h
    exact ⟨hacc n rfl, Or.inr rfl⟩
  | cons s rest ih =>
    intro acc n d hacc h
    simp only [findMinNode] at h
    by_cases hs : (V s).distance < acc.2
    · rw [if_pos hs] at h
      have hres := ih (some s, (V s).distance) n d
        (by intro n0 h0; injection h0 with h0'; rw [← h0']) h
      rcases hres.2 with hmem | hsome
      · exact ⟨hres.1, Or.inl (List.mem_cons_of_mem _ hmem)⟩
      · injection hsome with h'
        exact ⟨hres.1, Or.inl (by rw [← h']; exact List.mem_cons_self _ _)⟩
    · rw [if_neg hs] at h
      have hres := ih acc n d hacc h
      rcases hres.2 with hmem | hsome
      · exact ⟨hres.1, Or.inl (List.mem_cons_of_mem _ hmem)⟩
      · exact ⟨hres.1, Or.inr hsome⟩

theorem findMinNode_min (V : VMap) :
    ∀ (l : List String) (acc : Option String × WithTop Nat) (n : String)
      (d : WithTop Nat),
      findMinNode V l acc = (some n, d) →
      d ≤ acc.2 ∧ ∀ w ∈ l, d ≤ (V w).distance := by
  intro l
  induction l with
  | nil =>
    intro acc n d h
    simp only [findMinNode] at h
    subst h
    exact ⟨le_refl _, by simp⟩
  | cons s rest ih =>
    intro acc n d h
    simp only [findMinNode] at h
    by_cases hs : (V s).distance < acc.2
    · rw [if_pos hs] at h
      have hres := ih _ n d h
      refine ⟨le_trans hres.1 (le_of_lt hs), ?_⟩
      intro w hw
      rcases List.mem_cons.mp hw with rfl | hw'
      · exact hres.1
      · exact hres.2 w hw'
    · rw [if_neg hs] at h
      have hres := ih acc n d h
      refine ⟨hres.1, ?_⟩
      intro w hw
      rcases List.mem_cons.mp hw with rfl | hw'
      · exact le_trans hres.1 (not_lt.mp hs)
      · exact hres.2 w hw'

theorem findMinNode_lt_top (V : VMap) :
    ∀ (l : List String) (acc : Option String × WithTop Nat) (n : String)
      (d : WithTop Nat),
      (∀ n0, acc.1 = some n0 → acc.2 < ⊤) →
      findMinNode V l acc = (some n, d) → d < ⊤ := by
  intro l
  induction l with
  | nil =>
    intro acc n d hacc h
    simp only [findMinNode] at h
    subst h
    exact hacc n rfl
  | cons s rest ih =>
    intro acc n d hacc h
    simp only [findMinNode] at h
    by_cases hs : (V s).distance < acc.2
    · rw [if_pos hs] at h
      exact ih (some s, (V s).distance) n d
        (by intro n0 h0; exact lt_of_lt_of_le hs le_top) h
    · rw [if_neg hs] at h
      exact ih acc n d hacc h

theorem relaxEdges_char (node : String) (minD : WithTop Nat) :
    ∀ (edges : List (String × Transition)) (V : VMap) (x : String),
      (relaxEdges node minD edges V) x = V x ∨
      ∃ t, (x, t) ∈ edges ∧
        (relaxEdges node minD edges V) x =
          ⟨minD + (t.cost : WithTop Nat), some node⟩ ∧
        minD + (t.cost : WithTop Nat) < (V x).distance := by
  intro edges
  induction edges with
  | nil => intro V x; exact Or.inl rfl
  | cons e rest ih =>
    intro V x
    obtain ⟨nb, t0⟩ := e
    simp only [relaxEdges]
    by_cases hc : minD + (t0.cost : WithTop Nat) < (V nb).distance
    · rw [if_pos hc]
      rcases ih (updV V nb ⟨minD + (t0.cost : WithTop Nat), some node⟩) x with
        heq | ⟨t, hmem, heq, hlt⟩
      · by_cases hx : x = nb
        · subst hx
          refine Or.inr ⟨t0, List.mem_cons_self _ _, ?_, hc⟩
          rw [heq]
          simp [updV]
        · refine Or.inl ?_
          rw [heq]
          simp [updV, hx]
      · by_cases hx : x = nb
        · subst hx
          refine Or.inr ⟨t, List.mem_cons_of_mem _ hmem, heq, ?_⟩
          have hmid : ((updV V x ⟨minD + (t0.cost : WithTop Nat), some node⟩) x).distance =
              minD + (t0.cost : WithTop Nat) := by simp [updV]
          rw [hmid] at hlt
          exact lt_trans hlt hc
        · refine Or.inr ⟨t, List.mem_cons_of_mem _ hmem, heq, ?_⟩
          have hmid : ((updV V nb ⟨minD + (t0.cost : WithTop Nat), some node⟩) x).distance =
              (V x).distance := by simp [updV, hx]
          rwa [hmid] at hlt
    · rw [if_neg hc]
      rcases ih V x with heq | ⟨t, hmem, heq, hlt⟩
      · exact Or.inl heq
      · exact Or.inr ⟨t, List.mem_cons_of_mem _ hmem, heq, hlt⟩

theorem relaxEdges_mono (node : String) (minD : WithTop Nat)
    (edges : List (String × Transition)) (V : VMap) (x : String) :
    ((relaxEdges node minD edges V) x).distance ≤ (V x).distance := by
  rcases relaxEdges_char node minD edges V x with heq | ⟨t, _, heq, hlt⟩
  · rw [heq]
  · rw [heq]
    exact le_of_lt hlt

theorem relaxEdges_bound (node : String) (minD : WithTop Nat) :
    ∀ (edges : List (String × Transition)) (V : VMap) (v : String) (t : Transition),
      (v, t) ∈ edges →
      ((relaxEdges node minD edges V) v).distance ≤ minD + (t.cost : WithTop Nat) := by
  intro edges
  induction edges with
  | nil =>
    intro V v t h
    cases h
  | cons e rest ih =>
    intro V v t h
    obtain ⟨nb, t0⟩ := e
    rcases List.mem_cons.mp h with heq | hmem
    · injection heq with h1 h2
      subst h1
      subst h2
      simp only [relaxEdges]
      by_cases hc : minD + (t.cost : WithTop Nat) < (V v).distance
      · rw [if_pos hc]
        calc ((relaxEdges node minD rest
              (updV V v ⟨minD + (t.cost : WithTop Nat), some node⟩)) v).distance
            ≤ ((updV V v ⟨minD + (t.cost : WithTop Nat), some node⟩) v).distance :=
              relaxEdges_mono node minD rest _ v
          _ = minD + (t.cost : WithTop Nat) := by simp [updV]
      · rw [if_neg hc]
        calc ((relaxEdges node minD rest V) v).distance ≤ (V v).distance :=
            relaxEdges_mono node minD rest V v
          _ ≤ minD + (t.cost : WithTop Nat) := not_lt.mp hc
    · simp only [relaxEdges]
      split
      · exact ih _ v t hmem
      · exact ih _ v t hmem

theorem assocGet_of_mem_nodup {κ β : Type} [BEq κ] [LawfulBEq κ] :
    ∀ (l : List (κ × β)) (k : κ) (b : β), (k, b) ∈ l →
      (l.map Prod.fst).Nodup → assocGet l k = some b := by
  intro l
  induction l with
  | nil =>
    intro k b h _
    cases h
  | cons kv rest ih =>
    intro k b h hnd
    rcases List.mem_cons.mp h with heq | hmem
    · rw [← heq]
      simp [assocGet_cons]
    · have hk : k ∈ rest.map Prod.fst := by
        have := List.mem_map_of_mem Prod.fst hmem
        simpa using this
      have hkv : kv.1 ∉ rest.map Prod.fst := by
        have := hnd
        rw [List.map_cons, List.nodup_cons] at this
        exact this.1
      have hne : ¬ (kv.1 == k) := by
        simp only [beq_iff_eq]
        intro hh
        exact hkv (hh ▸ hk)
      rw [assocGet_cons]
      simp only [hne, if_false]
      exact ih k b hmem (by
        have := hnd
        rw [List.map_cons, List.nodup_cons] at this
        exact this.2)

theorem edgeFor_to_outEdges {P : Type} (m : Machine P) (n v : String)
    (t : Transition) (h : m.edgeFor n v = some t) : (v, t) ∈ m.outEdges n := by
  unfold Machine.edgeFor edgeIn at h
  cases hb : assocGet m.neighbors n with
  | none => rw [hb] at h; cases h
  | some bucket =>
    rw [hb] at h
    simp only [Option.some_bind] at h
    have := assocGet_mem h
    unfold Machine.outEdges Machine.neighborsOf
    rw [hb]
    simpa using this

theorem outEdges_to_edgeFor {P : Type} (m : Machine P)
    (hndB : ∀ s bucket, m.neighborsOf s = some bucket → (bucket.map Prod.fst).Nodup)
    (n v : String) (t : Transition) (h : (v, t) ∈ m.outEdges n) :
    m.edgeFor n v = some t := by
  unfold Machine.outEdges at h
  cases hb : m.neighborsOf n with
  | none => rw [hb] at h; cases h
  | some bucket =>
    rw [hb] at h
    simp only [Option.getD_some] at h
    have hnd := hndB n bucket hb
    have hget := assocGet_of_mem_nodup bucket v t h hnd
    unfold Machine.edgeFor edgeIn
    unfold Machine.neighborsOf at hb
    rw [hb]
    simpa using hget

theorem dijkstra_step_some {P : Type} (m : Machine P) (src : String)
    (allNodes : List String)
    (hwfT : ∀ x v t, m.edgeFor x v = some t → v ∈ allNodes)
    (hndB : ∀ s bucket, m.neighborsOf s = some bucket → (bucket.map Prod.fst).Nodup)
    (unvisited : List String) (V : VMap)
    (inv : DijkstraInv m src allNodes unvisited V)
    (n : String) (minD : WithTop Nat)
    (hfm : findMinNode V unvisited (none, ⊤) = (some n, minD)) :
    n ∈ unvisited ∧
    DijkstraInv m src allNodes (unvisited.erase n)
      (relaxEdges n minD (m.outEdges n) V) := by
  have hsm := findMinNode_some_mem V unvisited (none, ⊤) n minD (by simp) hfm
  have hdn : minD = (V n).distance := hsm.1
  have hmem_n : n ∈ unvisited := by
    rcases hsm.2 with h | h
    · exact h
    · simp at h
  have hmin : ∀ w ∈ unvisited, minD ≤ (V w).distance :=
    (findMinNode_min V unvisited (none, ⊤) n minD hfm).2
  have hlt_top : minD < ⊤ :=
    findMinNode_lt_top V unvisited (none, ⊤) n minD (by simp) hfm
  set edges := m.outEdges n with hedges
  set V' := relaxEdges n minD edges V with hV'
  have char' : ∀ x, V' x = V x ∨ ∃ t, (x, t) ∈ edges ∧
      V' x = ⟨minD + (t.cost : WithTop Nat), some n⟩ ∧
      minD + (t.cost : WithTop Nat) < (V x).distance :=
    fun x => relaxEdges_char n minD edges V x
  have mono' : ∀ x, (V' x).distance ≤ (V x).distance :=
    fun x => relaxEdges_mono n minD edges V x
  have bound' : ∀ v t, (v, t) ∈ edges →
      (V' v).distance ≤ minD + (t.cost : WithTop Nat) :=
    fun v t h => relaxEdges_bound n minD edges V v t h
  have freeze : ∀ x, x ∉ unvisited → V' x = V x := by
    intro x hx
    rcases char' x with heq | ⟨t, hmemE, _, hcond⟩
    · exact heq
    · exfalso
      have hedge : m.edgeFor n x = some t := outEdges_to_edgeFor m hndB n x t hmemE
      have hxall : x ∈ allNodes := hwfT n x t hedge
      have hle : (V x).distance ≤ (V n).distance := inv.mono x hxall hx n hmem_n
      rw [← hdn] at hle
      exact absurd (lt_of_lt_of_le hcond hle) (not_lt.mpr le_self_add)
  have freezeN : V' n = V n := by
    rcases char' n with heq | ⟨t, _, _, hcond⟩
    · exact heq
    · exfalso
      rw [← hdn] at hcond
      exact absurd hcond (not_lt.mpr le_self_add)
  have distN : (V' n).distance = minD := by rw [freezeN, hdn]
  have targets : ∀ x t, (x, t) ∈ edges → x ∈ allNodes := by
    intro x t hmemE
    exact hwfT n x t (outEdges_to_edgeFor m hndB n x t hmemE)
  have lower : ∀ w, minD ≤ (V w).distance → minD ≤ (V' w).distance := by
    intro w hw
    rcases char' w with heq | ⟨t, _, heq, _⟩
    · rw [heq]; exact hw
    · rw [heq]; exact le_self_add
  have notmem_unvisited : ∀ x, x ∉ unvisited.erase n → x ≠ n → x ∉ unvisited := by
    intro x hx hxn hmem
    exact hx ((inv.nodup.mem_erase_iff).mpr ⟨hxn, hmem⟩)
  refine ⟨hmem_n, ?_⟩
  constructor
  · exact inv.nodup.erase n
  · intro x hx
    exact inv.sub x (List.mem_of_mem_erase hx)
  · -- stable
    intro x hx v t hedge
    by_cases hxn : x = n
    · subst hxn
      have hmemE : (v, t) ∈ edges := edgeFor_to_outEdges m x v t hedge
      rw [distN]
      exact bound' v t hmemE
    · have hxu : x ∉ unvisited := notmem_unvisited x hx hxn
      have h1 := inv.stable x hxu v t hedge
      rw [freeze x hxu]
      calc (V' v).distance ≤ (V v).distance := mono' v
        _ ≤ (V x).distance + (t.cost : WithTop Nat) := h1
  · -- mono
    intro x hxall hx w hw
    have hwu : w ∈ unvisited := List.mem_of_mem_erase hw
    have hw' : minD ≤ (V' w).distance := lower w (hmin w hwu)
    by_cases hxn : x = n
    · subst hxn
      rw [distN]
      exact hw'
    · have hxu : x ∉ unvisited := notmem_unvisited x hx hxn
      rw [freeze x hxu]
      calc (V x).distance ≤ (V n).distance := inv.mono x hxall hxu n hmem_n
        _ = minD := hdn.symm
        _ ≤ (V' w).distance := hw'
  · -- prevSome
    intro x u hprev
    rcases char' x with heq | ⟨t, hmemE, heq, hcond⟩
    · rw [heq] at hprev
      obtain ⟨t, hedge, heqd, hne, hu⟩ := inv.prevSome x u hprev
      have huall : u ∈ allNodes := by
        by_contra huout
        have := (inv.outside u huout).1
        rw [this] at heqd
        rw [show (⊤ : WithTop Nat) + (t.cost : WithTop Nat) = ⊤ from top_add _] at heqd
        exact hne heqd
      refine ⟨t, hedge, ?_, ?_, ?_⟩
      · rw [heq, freeze u hu]
        exact heqd
      · rw [heq]
        exact hne
      · intro hmem
        exact hu (List.mem_of_mem_erase hmem)
    · rw [heq] at hprev
      simp only at hprev
      injection hprev with hun
      subst hun
      have hedge : m.edgeFor n x = some t := outEdges_to_edgeFor m hndB n x t hmemE
      refine ⟨t, hedge, ?_, ?_, ?_⟩
      · rw [heq, distN]
      · rw [heq]
        simp only
        intro hcontra
        rw [WithTop.add_eq_top] at hcontra
        rcases hcontra with h | h
        · exact absurd h (WithTop.lt_top_iff_ne_top.mp hlt_top)
        · exact WithTop.coe_ne_top h
      · intro hmem
        exact (inv.nodup.mem_erase_iff.mp hmem).1 rfl
  · -- prevNone
    intro x hprev
    rcases char' x with heq | ⟨t, _, heq, _⟩
    · rw [heq] at hprev ⊢
      exact inv.prevNone x hprev
    · rw [heq] at hprev
      simp at hprev
  · -- seedZero
    have hseedsrc : V' src = V src := by
      rcases char' src with heq | ⟨t, _, _, hcond⟩
      · exact heq
      · exfalso
        rw [inv.seedZero.1] at hcond
        exact absurd hcond (not_lt.mpr (zero_le _))
    have hseedbad : V' BAD_STATE = V BAD_STATE := by
      rcases char' BAD_STATE with heq | ⟨t, _, _, hcond⟩
      · exact heq
      · exfalso
        rw [inv.seedZero.2.2.1] at hcond
        exact absurd hcond (not_lt.mpr (zero_le _))
    rw [hseedsrc, hseedbad]
    exact inv.seedZero
  · -- outside
    intro x hxout
    rcases char' x with heq | ⟨t, hmemE, _, _⟩
    · rw [heq]
      exact inv.outside x hxout
    · exact absurd (targets x t hmemE) hxout

theorem dijkstra_step_none {P : Type} (m : Machine P) (src : String)
    (allNodes : List String)
    (unvisited : List String) (V : VMap)
    (inv : DijkstraInv m src allNodes unvisited V)
    (hfm : (findMinNode V unvisited (none, ⊤)).1 = none) :
    DijkstraInv m src allNodes unvisited.dropLast V := by
  have hall : ∀ w ∈ unvisited, (V w).distance = ⊤ :=
    (findMinNode_none V unvisited (none, ⊤) (by simp) hfm).2
  have hsub : unvisited.dropLast ⊆ unvisited := by
    intro x hx
    exact List.dropLast_subset _ hx
  constructor
  · exact inv.nodup.sublist (List.dropLast_sublist _)
  · intro x hx
    exact inv.sub x (hsub hx)
  · intro x hx v t hedge
    by_cases hxu : x ∈ unvisited
    · rw [hall x hxu, top_add]
      exact le_top
    · exact inv.stable x hxu v t hedge
  · intro x _ _ w hw
    rw [hall w (hsub hw)]
    exact le_top
  · intro x u hprev
    obtain ⟨t, hedge, heqd, hne, hu⟩ := inv.prevSome x u hprev
    exact ⟨t, hedge, heqd, hne, fun hmem => hu (hsub hmem)⟩
  · exact inv.prevNone
  · exact inv.seedZero
  · exact inv.outside

theorem dijkstraLoop_inv {P : Type} (m : Machine P) (src : String)
    (allNodes : List String)
    (hwfT : ∀ x v t, m.edgeFor x v = some t → v ∈ allNodes)
    (hndB : ∀ s bucket, m.neighborsOf s = some bucket → (bucket.map Prod.fst).Nodup) :
    ∀ (fuel : Nat) (unvisited : List String) (V : VMap),
      unvisited.length = fuel →
      DijkstraInv m src allNodes unvisited V →
      DijkstraInv m src allNodes [] (m.dijkstraLoop fuel unvisited V) := by
  intro fuel
  induction fuel with
  | zero =>
    intro unvisited V hlen inv
    have h0 : unvisited = [] := List.length_eq_zero.mp hlen
    subst h0
    exact inv
  | succ fuel ih =>
    intro unvisited V hlen inv
    have hne : unvisited.isEmpty = false := by
      cases unvisited
      · simp at hlen
      · rfl
    simp only [Machine.dijkstraLoop, hne, Bool.false_eq_true, if_false]
    cases hfm : findMinNode V unvisited (none, ⊤) with
    | mk o d =>
      cases o with
      | some n =>
        obtain ⟨hmem_n, inv'⟩ :=
          dijkstra_step_some m src allNodes hwfT hndB unvisited V inv n d hfm
        exact ih _ _ (by rw [List.length_erase_of_mem hmem_n, hlen]; omega) inv'
      | none =>
        have inv' := dijkstra_step_none m src allNodes unvisited V inv (by rw [hfm])
        exact ih _ _ (by rw [List.length_dropLast, hlen]; omega) inv'

theorem dijkstra_init_inv {P : Type} (m : Machine P) (startState : String)
    (hnd : m.states.Nodup) (hbad : BAD_STATE ∉ m.states)
    (hsrc : startState ∈ m.states ∨ startState = BAD_STATE) :
    DijkstraInv m startState (m.states ++ [BAD_STATE]) (m.states ++ [BAD_STATE])
      (updV (fun s => if s = startState then ⟨0, none⟩ else ⟨⊤, none⟩)
        BAD_STATE ⟨0, none⟩) := by
  have hsrcAll : startState ∈ m.states ++ [BAD_STATE] := by
    rcases hsrc with h | h
    · simp [h]
    · simp [h]
  have hVdist : ∀ x,
      ((updV (fun s => if s = startState then ⟨0, none⟩ else ⟨⊤, none⟩)
        BAD_STATE ⟨0, none⟩ : VMap) x).distance =
      if x = BAD_STATE ∨ x = startState then 0 else ⊤ := by
    intro x
    unfold updV
    by_cases hb : x = BAD_STATE
    · simp [hb]
    · by_cases hst : x = startState <;> simp [hb, hst]
  have hVprev : ∀ x,
      ((updV (fun s => if s = startState then ⟨0, none⟩ else ⟨⊤, none⟩)
        BAD_STATE ⟨0, none⟩ : VMap) x).prev = none := by
    intro x
    unfold updV
    by_cases hb : x = BAD_STATE
    · simp [hb]
    · by_cases hst : x = startState <;> simp [hb, hst]
  constructor
  · rw [List.nodup_append]
    refine ⟨hnd, by simp, ?_⟩
    intro a ha hcontra
    simp at hcontra
    subst hcontra
    exact hbad ha
  · intro x hx
    exact hx
  · intro x hx v t _
    have : x ∉ m.states ++ [BAD_STATE] := hx
    have hxb : x ≠ BAD_STATE := by
      intro h
      exact this (by simp [h])
    have hxs : x ≠ startState := by
      intro h
      exact this (h ▸ hsrcAll)
    rw [hVdist x, if_neg (by tauto), top_add]
    exact le_top
  · intro x hxall hx _ _
    exact absurd hxall hx
  · intro x u hprev
    rw [hVprev x] at hprev
    cases hprev
  · intro x _
    by_cases h : x = BAD_STATE ∨ x = startState
    · refine Or.inl ⟨?_, by rw [hVdist x, if_pos h]⟩
      tauto
    · refine Or.inr ?_
      rw [hVdist x, if_neg h]
  · refine ⟨?_, hVprev _, ?_, hVprev _⟩
    · rw [hVdist startState, if_pos (Or.inr rfl)]
    · rw [hVdist BAD_STATE, if_pos (Or.inl rfl)]
  · intro x hxout
    have hxb : x ≠ BAD_STATE := by
      intro h
      exact hxout (by simp [h])
    have hxs : x ≠ startState := by
      intro h
      exact hxout (h ▸ hsrcAll)
    exact ⟨by rw [hVdist x, if_neg (by tauto)], hVprev x⟩

theorem pathCost_shift {P : Type} (m : Machine P) :
    ∀ (l : List (String × String)) (nn : Nat),
      l.foldl (fun cost e => cost + ((m.edgeFor e.1 e.2).map (·.cost)).getD 0) nn =
        nn + l.foldl (fun cost e => cost + ((m.edgeFor e.1 e.2).map (·.cost)).getD 0) 0 := by
  intro l
  induction l with
  | nil => intro nn; simp
  | cons e rest ih =>
    intro nn
    simp only [List.foldl_cons]
    rw [ih, ih (0 + ((m.edgeFor e.1 e.2).map (·.cost)).getD 0)]
    omega

theorem pathCost_cons {P : Type} (m : Machine P) (a b : String)
    (rest : List (String × String)) :
    m.pathCost ((a, b) :: rest) =
      ((m.edgeFor a b).map (·.cost)).getD 0 + m.pathCost rest := by
  unfold Machine.pathCost
  simp only [List.foldl_cons]
  rw [pathCost_shift]
  omega

theorem chain_dist_le {P : Type} (m : Machine P) (V : VMap)
    (hstable : ∀ x v t, m.edgeFor x v = some t →
      (V v).distance ≤ (V x).distance + (t.cost : WithTop Nat)) :
    ∀ (p : List (String × String)) (s tgt : String),
      Machine.chainFrom m s p tgt = true →
      (V tgt).distance ≤ (V s).distance + (m.pathCost p : WithTop Nat) := by
  intro p
  induction p with
  | nil =>
    intro s tgt h
    have hst : s = tgt := by simpa [Machine.chainFrom] using h
    subst hst
    simp [Machine.pathCost]
  | cons e rest ih =>
    intro s tgt h
    obtain ⟨a, b⟩ := e
    simp only [Machine.chainFrom, Bool.and_eq_true, beq_iff_eq] at h
    obtain ⟨⟨has, hsome⟩, hrest⟩ := h
    subst has
    obtain ⟨t0, ht0⟩ := Option.isSome_iff_exists.mp hsome
    have h1 := hstable a b t0 ht0
    have h2 := ih b tgt hrest
    calc (V tgt).distance ≤ (V b).distance + (m.pathCost rest : WithTop Nat) := h2
      _ ≤ ((V a).distance + (t0.cost : WithTop Nat)) + (m.pathCost rest : WithTop Nat) :=
        add_le_add_right h1 _
      _ = (V a).distance + ((t0.cost : WithTop Nat) + (m.pathCost rest : WithTop Nat)) :=
        add_assoc _ _ _
      _ = (V a).distance + (m.pathCost ((a, b) :: rest) : WithTop Nat) := by
        rw [pathCost_cons, ht0]
        push_cast
        rfl

theorem buildPath_spec {P : Type} (m : Machine P) (V : VMap) (src : String)
    (hps : ∀ x u, (V x).prev = some u → ∃ t, m.edgeFor u x = some t ∧
      (V x).distance = (V u).distance + (t.cost : WithTop Nat))
    (hseedsrc : (V src).distance = 0) (hseedbad : (V BAD_STATE).distance = 0) :
    ∀ (fuel : Nat) (prev current : String) (acc : List (String × String))
      (tgt : String) (path : List (String × String)),
      (V current).prev = some prev →
      Machine.chainFrom m prev acc tgt = true →
      (V tgt).distance = (V prev).distance + (m.pathCost acc : WithTop Nat) →
      buildPath V src fuel prev current acc = some path →
      ∃ s0, (s0 = src ∨ s0 = BAD_STATE) ∧
        Machine.chainFrom m s0 path tgt = true ∧
        (V tgt).distance = (m.pathCost path : WithTop Nat) := by
  intro fuel
  induction fuel with
  | zero =>
    intro prev current acc tgt path _ _ _ hok
    exact Option.noConfusion hok
  | succ fuel ih =>
    intro prev current acc tgt path hcur hchain hdist hok
    simp only [buildPath] at hok
    by_cases hguard : prev = src ∨ prev = BAD_STATE
    · rw [if_pos hguard] at hok
      injection hok with h'
      subst h'
      refine ⟨prev, hguard, hchain, ?_⟩
      rw [hdist]
      rcases hguard with rfl | rfl
      · rw [hseedsrc, zero_add]
      · rw [hseedbad, zero_add]
    · rw [if_neg hguard, hcur] at hok
      cases hpp : (V prev).prev with
      | none =>
        rw [hpp] at hok
        exact Option.noConfusion hok
      | some p2 =>
        rw [hpp] at hok
        obtain ⟨t, hedge, heqd⟩ := hps prev p2 hpp
        refine ih p2 prev ((p2, prev) :: acc) tgt path hpp ?_ ?_ hok
        · simp [Machine.chainFrom, hedge, hchain]
        · rw [hdist, heqd, pathCost_cons, hedge]
          push_cast
          rw [add_assoc]
          rfl

theorem findPathFromStart_optimal {P : Type} (m : Machine P)
    (startState stateName : String) (path : List (String × String))
    (hnd : m.states.Nodup) (hbad : BAD_STATE ∉ m.states)
    (hwf : ∀ x v t, m.edgeFor x v = some t → v ∈ m.states)
    (hndB : ∀ s bucket, m.neighborsOf s = some bucket → (bucket.map Prod.fst).Nodup)
    (hsrc : startState ∈ m.states ∨ startState = BAD_STATE)
    (hok : m.findPathFromStart startState stateName = .ok path) :
    (∃ s0, (s0 = startState ∨ s0 = BAD_STATE) ∧
      Machine.chainFrom m s0 path stateName = true) ∧
    ∀ s0 q, (s0 = startState ∨ s0 = BAD_STATE) →
      Machine.chainFrom m s0 q stateName = true →
      m.pathCost path ≤ m.pathCost q := by
  have hwf' : ∀ x v t, m.edgeFor x v = some t → v ∈ m.states ++ [BAD_STATE] := by
    intro x v t h
    simp [hwf x v t h]
  have inv0 := dijkstra_init_inv m startState hnd hbad hsrc
  have invF : DijkstraInv m startState (m.states ++ [BAD_STATE]) []
      (m.dijkstraFinal startState) :=
    dijkstraLoop_inv m startState (m.states ++ [BAD_STATE]) hwf' hndB
      (m.states ++ [BAD_STATE]).length (m.states ++ [BAD_STATE])
      (Machine.initialVertices startState) rfl inv0
  have hstable : ∀ x v t, m.edgeFor x v = some t →
      ((m.dijkstraFinal startState) v).distance ≤
        ((m.dijkstraFinal startState) x).distance + (t.cost : WithTop Nat) :=
    fun x v t h => invF.stable x (by simp) v t h
  have hseedS : ((m.dijkstraFinal startState) startState).distance = 0 := invF.seedZero.1
  have hseedB : ((m.dijkstraFinal startState) BAD_STATE).distance = 0 :=
    invF.seedZero.2.2.1
  have hps : ∀ x u, ((m.dijkstraFinal startState) x).prev = some u →
      ∃ t, m.edgeFor u x = some t ∧
        ((m.dijkstraFinal startState) x).distance =
          ((m.dijkstraFinal startState) u).distance + (t.cost : WithTop Nat) := by
    intro x u h
    obtain ⟨t, h1, h2, _, _⟩ := invF.prevSome x u h
    exact ⟨t, h1, h2⟩
  unfold Machine.findPathFromStart at hok
  by_cases heq : startState = stateName
  · rw [if_pos heq] at hok
    have h' : ([] : List (String × String)) = path := Except.ok.inj hok
    subst h'
    constructor
    · exact ⟨startState, Or.inl rfl, by simp [Machine.chainFrom, heq]⟩
    · intro s0 q _ _
      simp [Machine.pathCost]
  · rw [if_neg heq] at hok
    cases hprev : ((m.dijkstraFinal startState) stateName).prev with
    | none =>
      rw [hprev] at hok
      exact Except.noConfusion hok
    | some prev =>
      rw [hprev] at hok
      have hok2 : (match buildPath (m.dijkstraFinal startState) startState
            (m.states.length + 2) prev stateName [(prev, stateName)] with
          | some path' => Except.ok path'
          | none => (Except.error "Path reconstruction did not terminate." :
              Except String (List (String × String)))) = Except.ok path := hok
      cases hbuild : buildPath (m.dijkstraFinal startState) startState
          (m.states.length + 2) prev stateName [(prev, stateName)] with
      | none =>
        rw [hbuild] at hok2
        exact Except.noConfusion hok2
      | some path' =>
        rw [hbuild] at hok2
        have hpp : path' = path := Except.ok.inj hok2
        subst hpp
        obtain ⟨t0, hedge0, heqd0⟩ := hps stateName prev hprev
        have hchain0 : Machine.chainFrom m prev [(prev, stateName)] stateName = true := by
          simp [Machine.chainFrom, hedge0]
        have hdist0 : ((m.dijkstraFinal startState) stateName).distance =
            ((m.dijkstraFinal startState) prev).distance +
              (m.pathCost [(prev, stateName)] : WithTop Nat) := by
          have hc : m.pathCost [(prev, stateName)] = t0.cost := by
            rw [pathCost_cons, hedge0]
            simp [Machine.pathCost]
          rw [hc]
          exact heqd0
        obtain ⟨s0, hs0, hchainP, hcost⟩ :=
          buildPath_spec m (m.dijkstraFinal startState) startState hps hseedS hseedB
            (m.states.length + 2) prev stateName [(prev, stateName)] stateName path'
            hprev hchain0 hdist0 hbuild
        constructor
        · exact ⟨s0, hs0, hchainP⟩
        · intro s1 q hs1 hchainq
          have hle := chain_dist_le m (m.dijkstraFinal startState) hstable q s1
            stateName hchainq
          have hz : ((m.dijkstraFinal startState) s1).distance = 0 := by
            rcases hs1 with rfl | rfl
            exacts [hseedS, hseedB]
          rw [hz, zero_add, hcost] at hle
          exact_mod_cast hle

/-- **C1**: on a machine with registered, duplicate-free base states and
well-formed transition tables, a successful `findPathToState` — here split
after current-state resolution into `findPathFrom` — returns a genuine path
of declared edges from the effective start (the resolved current state, or
the sentinel when that state has no outgoing-edge bucket — the sentinel being
seeded at distance 0 in every run) to the target, whose total cost is less
than or equal to the total cost of every path of declared edges to the target
from either seeded start vertex. -/
theorem C1_findPathToState_optimal {P : Type} (m : Machine P)
    (resolvedState stateName : String) (path : List (String × String))
    (hnd : m.states.Nodup) (hbad : BAD_STATE ∉ m.states)
    (hwf : ∀ x v t, m.edgeFor x v = some t → v ∈ m.states)
    (hndB : ∀ s bucket, m.neighborsOf s = some bucket → (bucket.map Prod.fst).Nodup)
    (hsrc : resolvedState ∈ m.states ∨ resolvedState = BAD_STATE)
    (hok : m.findPathFrom resolvedState stateName = .ok path) :
    (∃ s0, (s0 = (if (m.neighborsOf resolvedState).isNone then BAD_STATE
        else resolvedState) ∨ s0 = BAD_STATE) ∧
      Machine.chainFrom m s0 path stateName = true) ∧
    ∀ s0 q, (s0 = (if (m.neighborsOf resolvedState).isNone then BAD_STATE
        else resolvedState) ∨ s0 = BAD_STATE) →
      Machine.chainFrom m s0 q stateName = true →
      m.pathCost path ≤ m.pathCost q := by
  unfold Machine.findPathFrom at hok
  by_cases htgt : m.states.contains stateName
  · rw [if_neg (by simpa using htgt)] at hok
    refine findPathFromStart_optimal m _ stateName path hnd hbad hwf hndB ?_ hok
    split
    · exact Or.inr rfl
    · exact hsrc
  · rw [if_pos (by simpa using htgt)] at hok
    exact Except.noConfusion hok

theorem edgeFor_target_mem {P : Type} (m : Machine P) (x v : String)
    (t : Transition) (h : m.edgeFor x v = some t) :
    ∃ bucket, (x, bucket) ∈ m.neighbors ∧ (v, t) ∈ bucket := by
  unfold Machine.edgeFor edgeIn at h
  cases hb : assocGet m.neighbors x with
  | none =>
    rw [hb] at h
    cases h
  | some bucket =>
    rw [hb] at h
    simp only [Option.some_bind] at h
    exact ⟨bucket, assocGet_mem hb, assocGet_mem h⟩

theorem neighborsOf_mem {P : Type} (m : Machine P) (s : String)
    (bucket : List (String × Transition)) (h : m.neighborsOf s = some bucket) :
    (s, bucket) ∈ m.neighbors := by
  unfold Machine.neighborsOf at h
  exact assocGet_mem h

/-- Witness for C1 at `cycleMachine`: the returned three-edge path to `baz`
costs no more than the six-edge chain that loops once around the cycle. -/
theorem C1_findPathToState_optimal_witness :
    (cycleMachine.states.Nodup ∧ BAD_STATE ∉ cycleMachine.states ∧
      cycleMachine.findPathFrom BAD_STATE "baz" =
        .ok [(BAD_STATE, "foo"), ("foo", "bar"), ("bar", "baz")] ∧
      Machine.chainFrom cycleMachine BAD_STATE
        [(BAD_STATE, "foo"), ("foo", "bar"), ("bar", "baz"), ("baz", "foo"),
          ("foo", "bar"), ("bar", "baz")] "baz" = true) ∧
    cycleMachine.pathCost [(BAD_STATE, "foo"), ("foo", "bar"), ("bar", "baz")] ≤
      cycleMachine.pathCost [(BAD_STATE, "foo"), ("foo", "bar"), ("bar", "baz"),
        ("baz", "foo"), ("foo", "bar"), ("bar", "baz")] := by
  have hwf : ∀ x v t, cycleMachine.edgeFor x v = some t → v ∈ cycleMachine.states := by
    intro x v t h
    obtain ⟨bucket, hb, hv⟩ := edgeFor_target_mem cycleMachine x v t h
    simp only [cycleMachine, List.mem_cons, List.not_mem_nil, or_false,
      Prod.mk.injEq] at hb
    rcases hb with ⟨rfl, rfl⟩ | ⟨rfl, rfl⟩ | ⟨rfl, rfl⟩ | ⟨rfl, rfl⟩ <;>
      (simp only [List.mem_cons, List.not_mem_nil, or_false, Prod.mk.injEq] at hv;
        obtain ⟨rfl, rfl⟩ := hv) <;> decide
  have hndB : ∀ s bucket, cycleMachine.neighborsOf s = some bucket →
      (bucket.map Prod.fst).Nodup := by
    intro s bucket h
    have hb := neighborsOf_mem cycleMachine s bucket h
    simp only [cycleMachine, List.mem_cons, List.not_mem_nil, or_false,
      Prod.mk.injEq] at hb
    rcases hb with ⟨rfl, rfl⟩ | ⟨rfl, rfl⟩ | ⟨rfl, rfl⟩ | ⟨rfl, rfl⟩ <;> decide
  refine ⟨⟨by decide, by decide, rfl, by decide⟩, ?_⟩
  exact (C1_findPathToState_optimal cycleMachine BAD_STATE "baz"
      [(BAD_STATE, "foo"), ("foo", "bar"), ("bar", "baz")] (by decide) (by decide)
      hwf hndB (Or.inr rfl) rfl).2 BAD_STATE
      [(BAD_STATE, "foo"), ("foo", "bar"), ("bar", "baz"), ("baz", "foo"),
        ("foo", "bar"), ("bar", "baz")] (Or.inr rfl) (by decide)

end Drone
